import Mathlib

set_option autoImplicit false

/-!
Shallow embedding of the relay server sources (src/main.rs and src/protocol.rs).

Bytes are modelled as natural numbers (each byte of the wire stream is a `Nat`,
values below 256 in every run of the real program).  Rust `String` fields are
modelled as their UTF-8 byte sequences, i.e. `List Nat`.  The serde_json layer
is modelled at the byte level: the serializer produces exactly the compact JSON
that serde_json emits for the two `Message` variants (declaration field order,
default escaping), and the parser accepts that grammar.
-/

/-- protocol.rs line 11: maximum message size, 10 MiB. -/
def MAX_MESSAGE_SIZE : Nat := 10 * 1024 * 1024

/-- protocol.rs lines 14-31: the handshake message union.
String fields are UTF-8 byte lists. -/
inductive Message where
  | RelayRequest (uuid : List Nat) (peer_id : List Nat) (role : List Nat)
  | RelayResponse (success : Bool) (message : Option (List Nat))
deriving DecidableEq

/-- Lower-case hex digit byte for a value below 16 (serde_json's escape table). -/
def hexDig (d : Nat) : Nat := if d < 10 then 48 + d else 87 + d

/-- serde_json's escaping of one byte inside a JSON string: quote and backslash
get two-byte escapes, the five named control characters get short escapes,
other control bytes get a six-byte numeric escape, everything else is literal. -/
def escByte (b : Nat) : List Nat :=
  if b = 34 then [92, 34]
  else if b = 92 then [92, 92]
  else if b = 8 then [92, 98]
  else if b = 9 then [92, 116]
  else if b = 10 then [92, 110]
  else if b = 12 then [92, 102]
  else if b = 13 then [92, 114]
  else if b < 32 then [92, 117, 48, 48, hexDig (b / 16), hexDig (b % 16)]
  else [b]

/-- Escape a whole string body. -/
def escString : List Nat → List Nat
  | [] => []
  | b :: t => escByte b ++ escString t

/-- Bytes of the literal text: open brace, quote, RelayRequest, quote, colon,
open brace, quote, uuid, quote, colon, quote. -/
def openReq : List Nat :=
  [123, 34, 82, 101, 108, 97, 121, 82, 101, 113, 117, 101, 115, 116,
   34, 58, 123, 34, 117, 117, 105, 100, 34, 58, 34]

/-- Bytes of the literal text: comma, quote, peer_id, quote, colon, quote. -/
def midPeer : List Nat := [44, 34, 112, 101, 101, 114, 95, 105, 100, 34, 58, 34]

/-- Bytes of the literal text: comma, quote, role, quote, colon, quote. -/
def midRole : List Nat := [44, 34, 114, 111, 108, 101, 34, 58, 34]

/-- Bytes of the literal text: two closing braces. -/
def closeBr : List Nat := [125, 125]

/-- Bytes of the literal text: open brace, quote, RelayResponse, quote, colon,
open brace, quote, success, quote, colon. -/
def openResp : List Nat :=
  [123, 34, 82, 101, 108, 97, 121, 82, 101, 115, 112, 111, 110, 115, 101,
   34, 58, 123, 34, 115, 117, 99, 99, 101, 115, 115, 34, 58]

/-- Bytes of the literal text: comma, quote, message, quote, colon. -/
def midMsg : List Nat := [44, 34, 109, 101, 115, 115, 97, 103, 101, 34, 58]

/-- Bytes of the literal `true`. -/
def trueLit : List Nat := [116, 114, 117, 101]

/-- Bytes of the literal `false`. -/
def falseLit : List Nat := [102, 97, 108, 115, 101]

/-- Bytes of the literal `null`. -/
def nullLit : List Nat := [110, 117, 108, 108]

/-- JSON bytes of a boolean. -/
def boolLit (b : Bool) : List Nat := if b then trueLit else falseLit

/-- JSON bytes for the `message` field value followed by the closing braces. -/
def respTail : Option (List Nat) → List Nat
  | none => nullLit ++ closeBr
  | some t => 34 :: (escString t ++ 34 :: closeBr)

/-- The byte sequence serde_json produces for a `Message`
(protocol.rs line 39: `serde_json::to_vec`). -/
def jsonSerialize : Message → List Nat
  | Message.RelayRequest u p r =>
      openReq ++ (escString u ++ 34 ::
        (midPeer ++ (escString p ++ 34 ::
          (midRole ++ (escString r ++ 34 :: closeBr)))))
  | Message.RelayResponse ok msg =>
      openResp ++ (boolLit ok ++ (midMsg ++ respTail msg))

/-- Value of one hex digit byte, accepting both letter cases. -/
def hexVal (b : Nat) : Option Nat :=
  if 48 ≤ b ∧ b ≤ 57 then some (b - 48)
  else if 97 ≤ b ∧ b ≤ 102 then some (b - 87)
  else if 65 ≤ b ∧ b ≤ 70 then some (b - 55)
  else none

/-- Unescape a single-character JSON escape. -/
def unescByte (e : Nat) : Option Nat :=
  if e = 34 then some 34
  else if e = 92 then some 92
  else if e = 47 then some 47
  else if e = 98 then some 8
  else if e = 116 then some 9
  else if e = 110 then some 10
  else if e = 102 then some 12
  else if e = 114 then some 13
  else none

/-- Parse a JSON string body up to and including the closing quote, returning
the unescaped body and the remaining input. -/
def parseString : List Nat → Option (List Nat × List Nat)
  | [] => none
  | b :: rest =>
    if b = 34 then some ([], rest)
    else if b = 92 then
      match rest with
      | 117 :: h1 :: h2 :: h3 :: h4 :: r =>
        match hexVal h1, hexVal h2, hexVal h3, hexVal h4 with
        | some a, some b2, some c, some d =>
          match parseString r with
          | some (s, r2) => some ((4096 * a + 256 * b2 + 16 * c + d) :: s, r2)
          | none => none
        | _, _, _, _ => none
      | e :: r =>
        match unescByte e with
        | some v =>
          match parseString r with
          | some (s, r2) => some (v :: s, r2)
          | none => none
        | none => none
      | [] => none
    else
      match parseString rest with
      | some (s, r2) => some (b :: s, r2)
      | none => none

/-- Consume an exact literal from the head of the input. -/
def dropLit : List Nat → List Nat → Option (List Nat)
  | [], l => some l
  | _ :: _, [] => none
  | p :: ps, x :: xs => if x = p then dropLit ps xs else none

/-- Parse the body of a RelayRequest object after `openReq`. -/
def parseReqBody (l : List Nat) : Option Message :=
  match parseString l with
  | none => none
  | some (u, r1) =>
    match dropLit midPeer r1 with
    | none => none
    | some r2 =>
      match parseString r2 with
      | none => none
      | some (p, r3) =>
        match dropLit midRole r3 with
        | none => none
        | some r4 =>
          match parseString r4 with
          | none => none
          | some (ro, r5) =>
            match dropLit closeBr r5 with
            | none => none
            | some r6 => if r6 = [] then some (Message.RelayRequest u p ro) else none

/-- Parse a JSON boolean. -/
def parseBoolVal (l : List Nat) : Option (Bool × List Nat) :=
  match dropLit trueLit l with
  | some r => some (true, r)
  | none =>
    match dropLit falseLit l with
    | some r => some (false, r)
    | none => none

/-- Parse `null` or a JSON string, for the optional `message` field. -/
def parseOptVal (l : List Nat) : Option (Option (List Nat) × List Nat) :=
  match dropLit nullLit l with
  | some r => some (none, r)
  | none =>
    match l with
    | 34 :: r =>
      match parseString r with
      | some (s, r2) => some (some s, r2)
      | none => none
    | _ => none

/-- Parse the body of a RelayResponse object after `openResp`. -/
def parseRespBody (l : List Nat) : Option Message :=
  match parseBoolVal l with
  | none => none
  | some (ok, r1) =>
    match dropLit midMsg r1 with
    | none => none
    | some r2 =>
      match parseOptVal r2 with
      | none => none
      | some (msg, r3) =>
        match dropLit closeBr r3 with
        | none => none
        | some r4 => if r4 = [] then some (Message.RelayResponse ok msg) else none

/-- The byte-level model of `serde_json::from_slice` for the `Message` type
(protocol.rs line 69): the payload must be one whole JSON value of one of the
two variants, with nothing left over. -/
def jsonParse (l : List Nat) : Option Message :=
  match dropLit openReq l with
  | some r => parseReqBody r
  | none =>
    match dropLit openResp l with
    | some r => parseRespBody r
    | none => none

/-- Big-endian bytes of a length written as `u32` (protocol.rs line 43:
`put_u32(json.len() as u32)`; the `as u32` cast truncates modulo 2^32). -/
def be32 (n : Nat) : List Nat :=
  [n / 16777216 % 256, n / 65536 % 256, n / 256 % 256, n % 256]

/-- Read the 4-byte big-endian length prefix at the front of a byte list
(protocol.rs lines 100-105 and line 57). -/
def peekLen (l : List Nat) : Nat :=
  16777216 * l.getD 0 0 + 65536 * l.getD 1 0 + 256 * l.getD 2 0 + l.getD 3 0

/-- protocol.rs lines 37-47: serialize a message with its length prefix. -/
def Message.to_bytes (m : Message) : List Nat :=
  be32 (jsonSerialize m).length ++ jsonSerialize m

/-- protocol.rs lines 50-71: deserialize a message from bytes.  `none` models
the `anyhow` error paths; extra bytes beyond the declared length are ignored. -/
def Message.from_bytes (data : List Nat) : Option Message :=
  if data.length < 4 then none
  else if MAX_MESSAGE_SIZE < peekLen data then none
  else if data.length - 4 < peekLen data then none
  else jsonParse ((data.drop 4).take (peekLen data))

/-- protocol.rs lines 75-78: the frame reassembler's partial-message buffer. -/
structure MessageFramer where
  buffer : List Nat
deriving DecidableEq

/-- Prepend a decoded message when decoding succeeded, skip the frame when it
failed (protocol.rs lines 123-128). -/
def pushMsg (o : Option Message) (ms : List Message) : List Message :=
  match o with
  | some m => m :: ms
  | none => ms

/-- Fuelled version of the extraction loop of `MessageFramer::feed`
(protocol.rs lines 93-129).  Each iteration consumes at least 4 bytes, so
fuel equal to the buffer length always suffices; the fuel only makes the
recursion structural. -/
def extractFuel : Nat → List Nat → List Nat × List Message
  | 0, buf => (buf, [])
  | fuel + 1, buf =>
    if buf.length < 4 then (buf, [])
    else if MAX_MESSAGE_SIZE < peekLen buf then ([], [])
    else if buf.length < 4 + peekLen buf then (buf, [])
    else
      let r := extractFuel fuel (buf.drop (4 + peekLen buf))
      (r.1, pushMsg (Message.from_bytes (buf.take (4 + peekLen buf))) r.2)

/-- The extraction loop of `MessageFramer::feed`: repeatedly peel complete
frames off the front of the buffer; on an oversized length prefix clear the
whole buffer and stop. -/
def extract (buf : List Nat) : List Nat × List Message :=
  extractFuel buf.length buf

/-- protocol.rs lines 88-132: append the fed bytes to the buffer, then run the
extraction loop; returns the new framer and the decoded messages of this call. -/
def MessageFramer.feed (fr : MessageFramer) (data : List Nat) :
    MessageFramer × List Message :=
  (⟨(extract (fr.buffer ++ data)).1⟩, (extract (fr.buffer ++ data)).2)

/-- Feed a sequence of chunks one `feed` call each, concatenating the decoded
messages of all calls. -/
def feedAll (fr : MessageFramer) : List (List Nat) → MessageFramer × List Message
  | [] => (fr, [])
  | c :: cs =>
    ((feedAll (fr.feed c).1 cs).1, (fr.feed c).2 ++ (feedAll (fr.feed c).1 cs).2)

/-- Concatenation of a chunk list into one byte stream. -/
def concatChunks : List (List Nat) → List Nat
  | [] => []
  | c :: cs => c ++ concatChunks cs

/-- Split a byte stream into single-byte chunks. -/
def oneBytes (l : List Nat) : List (List Nat) := l.map (fun b => [b])

/-- Fuelled predicate: the extraction loop never hits the oversized-prefix
buffer-discard branch anywhere along this stream. -/
def noClearFuel : Nat → List Nat → Bool
  | 0, _ => true
  | fuel + 1, buf =>
    if buf.length < 4 then true
    else if MAX_MESSAGE_SIZE < peekLen buf then false
    else if buf.length < 4 + peekLen buf then true
    else noClearFuel fuel (buf.drop (4 + peekLen buf))

/-- The stream is well formed for the reassembler: every length prefix found
at a frame boundary is within `MAX_MESSAGE_SIZE`. -/
def noClear (buf : List Nat) : Bool := noClearFuel buf.length buf

/-- main.rs lines 228-232: the fields of a relay request. -/
structure RelayRequestData where
  uuid : List Nat
  peer_id : List Nat
  role : List Nat
deriving DecidableEq

/-- main.rs lines 187-212, `read_relay_request`: read a 4-byte big-endian
length prefix, reject a declared length above 1 MiB before reading any payload
bytes, read exactly that many payload bytes, parse them with serde_json, and
require the `RelayRequest` variant.  The input list models the byte sequence
the client sends before closing; `none` models every error return. -/
def read_relay_request (input : List Nat) : Option RelayRequestData :=
  if input.length < 4 then none
  else if 1024 * 1024 < peekLen input then none
  else if input.length - 4 < peekLen input then none
  else
    match jsonParse ((input.drop 4).take (peekLen input)) with
    | some (Message.RelayRequest u p r) => some ⟨u, p, r⟩
    | _ => none

/-- One completed read inside the proxy loop of main.rs lines 250-293: a chunk
of bytes together with the success of the subsequent `write_all` to the other
side, or a zero-byte read (peer closed), or a read error. -/
inductive ProxyEv where
  | chunk (data : List Nat) (wok : Bool)
  | closed
  | rerror
deriving DecidableEq

/-- Why the proxy loop of main.rs lines 250-293 ended.  The `Bool` names the
side whose read (or whose forwarded write) ended the session; `running` means
the given events did not end it. -/
inductive ProxyStop where
  | running
  | closedBy (side : Bool)
  | readErr (side : Bool)
  | writeErr (side : Bool)
deriving DecidableEq

/-- main.rs lines 235-303, `proxy_connections`: the `tokio::select!` loop, with
the nondeterministic completion order of the two directions given as the event
list.  `side = true` is a read from conn1 (forwarded to conn2).  Returns the
bytes written to conn2, the bytes written to conn1, and how the loop stopped. -/
def runProxy : List (Bool × ProxyEv) → List Nat × List Nat × ProxyStop
  | [] => ([], [], ProxyStop.running)
  | (side, ProxyEv.closed) :: _ => ([], [], ProxyStop.closedBy side)
  | (side, ProxyEv.rerror) :: _ => ([], [], ProxyStop.readErr side)
  | (side, ProxyEv.chunk d wok) :: rest =>
    if wok then
      if side then
        (d ++ (runProxy rest).1, (runProxy rest).2.1, (runProxy rest).2.2)
      else
        ((runProxy rest).1, d ++ (runProxy rest).2.1, (runProxy rest).2.2)
    else ([], [], ProxyStop.writeErr side)

/-- The bytes read from the given side among the listed events. -/
def sentBytes (side : Bool) : List (Bool × ProxyEv) → List Nat
  | [] => []
  | (s, ProxyEv.chunk d _) :: rest =>
    if s = side then d ++ sentBytes side rest else sentBytes side rest
  | _ :: rest => sentBytes side rest

/-- The stop reason a terminal event produces. -/
def stopOf : Bool × ProxyEv → ProxyStop
  | (side, ProxyEv.closed) => ProxyStop.closedBy side
  | (side, ProxyEv.rerror) => ProxyStop.readErr side
  | (side, ProxyEv.chunk _ _) => ProxyStop.writeErr side

/-- An event that does not end the session: a chunk whose forwarding write
succeeds. -/
def isGood : Bool × ProxyEv → Bool
  | (_, ProxyEv.chunk _ wok) => wok
  | _ => false

/-! The pairing registry of main.rs as a labelled transition system.

Each accepted connection is a task, numbered by a `Nat`; `U` assigns to each
task the session identifier (`uuid`) its relay request carries.  A state holds
each task's control point inside `handle_connection` (main.rs lines 113-181),
the shared `pairings` map (main.rs line 67), and the state of each first
arrival's `mpsc::channel(1)` (main.rs line 145).  Real time is abstracted:
the 30-second pairing deadline is the nondeterministic `timeoutExpire` event,
which — matching `tokio::time::timeout`, which polls `rx.recv()` first — can
fire only while the waiting task's channel is still empty.  The timeout branch
of main.rs lines 160-164 is not atomic: after the deadline elapses the task
must reacquire the registry lock before it removes its entry, and in that
window the entry is still in the map and the channel receiver still alive, so
a later connection with the same identifier can claim the entry and deliver
its half successfully.  `timeoutExpire` models the deadline elapsing (the task
enters the timeout branch), `timeoutRemove` the subsequent locked removal,
bail, and receiver drop (these three are await-free straight-line code, taken
as one step).  `send_relay_response` transport writes are modelled as
succeeding. -/

/-- Control point of one connection task inside `handle_connection`. -/
inductive Phase where
  | arrived
  | waiting
  | timingOut
  | sending (j : Nat)
  | pairedSecond (j : Nat)
  | relaying (j : Nat)
  | sendFailed
  | timedOut
deriving DecidableEq

/-- State of a first arrival's one-shot delivery channel. -/
inductive ChanSt where
  | idle
  | ready
  | holds (i : Nat)
  | consumed
  | closed
deriving DecidableEq

/-- Global state: per-task phase, the `pairings` map, per-task channel. -/
structure RegSt where
  phase : Nat → Phase
  reg : String → Option Nat
  chan : Nat → ChanSt

/-- Transition labels.  `tryPairFound i j`: task i takes the lock and finds
task j's entry (main.rs line 117).  `registerWait i`: task i takes the lock,
finds no entry, and inserts its own (main.rs lines 145-146).  `send i j`: task
i's `tx.send` delivers its connection half into task j's channel (main.rs
line 134).  `sendFail i j`: task i's `tx.send` fails because task j dropped
the receiver (main.rs lines 134-137).  `recv j i`: task j's `rx.recv` returns
task i's half (main.rs line 153).  `timeoutExpire j`: task j's pairing timeout
elapses with an empty channel and j enters the timeout branch (main.rs line
160); its entry is still in the map and its receiver still alive.
`timeoutRemove j`: task j acquires the registry lock, removes whatever entry
its uuid maps to, bails, and drops its receiver (main.rs lines 161-164 and
scope exit). -/
inductive Label where
  | tryPairFound (i j : Nat)
  | registerWait (i : Nat)
  | send (i j : Nat)
  | sendFail (i j : Nat)
  | recv (j i : Nat)
  | timeoutExpire (j : Nat)
  | timeoutRemove (j : Nat)
deriving DecidableEq

/-- Pointwise function update. -/
def upd {α β : Type} [DecidableEq α] (f : α → β) (a : α) (b : β) : α → β :=
  fun x => if x = a then b else f x

/-- One step of the system: `some` is the successor state when the label's
guard holds, `none` when the label is not enabled. -/
def applyLabel (U : Nat → String) : Label → RegSt → Option RegSt
  | Label.tryPairFound i j, s =>
    match s.phase i, s.reg (U i) with
    | Phase.arrived, some j' =>
      if j' = j then
        some { s with phase := upd s.phase i (Phase.sending j),
                      reg := upd s.reg (U i) none }
      else none
    | _, _ => none
  | Label.registerWait i, s =>
    match s.phase i, s.reg (U i) with
    | Phase.arrived, none =>
      some { phase := upd s.phase i Phase.waiting,
             reg := upd s.reg (U i) (some i),
             chan := upd s.chan i ChanSt.ready }
    | _, _ => none
  | Label.send i j, s =>
    match s.phase i, s.chan j with
    | Phase.sending j', ChanSt.ready =>
      if j' = j then
        some { s with phase := upd s.phase i (Phase.pairedSecond j),
                      chan := upd s.chan j (ChanSt.holds i) }
      else none
    | _, _ => none
  | Label.sendFail i j, s =>
    match s.phase i, s.chan j with
    | Phase.sending j', ChanSt.closed =>
      if j' = j then some { s with phase := upd s.phase i Phase.sendFailed }
      else none
    | _, _ => none
  | Label.recv j i, s =>
    match s.phase j, s.chan j with
    | Phase.waiting, ChanSt.holds i' =>
      if i' = i then
        some { s with phase := upd s.phase j (Phase.relaying i),
                      chan := upd s.chan j ChanSt.consumed }
      else none
    | _, _ => none
  | Label.timeoutExpire j, s =>
    match s.phase j, s.chan j with
    | Phase.waiting, ChanSt.ready =>
      some { s with phase := upd s.phase j Phase.timingOut }
    | _, _ => none
  | Label.timeoutRemove j, s =>
    match s.phase j with
    | Phase.timingOut =>
      some { phase := upd s.phase j Phase.timedOut,
             reg := upd s.reg (U j) none,
             chan := upd s.chan j ChanSt.closed }
    | _ => none

/-- The initial state: every task just arrived, empty map, no channels. -/
def initSt : RegSt :=
  { phase := fun _ => Phase.arrived, reg := fun _ => none, chan := fun _ => ChanSt.idle }

/-- Run a trace of labels from a state; `none` if some label is not enabled. -/
def runFrom (U : Nat → String) (s : RegSt) : List Label → Option RegSt
  | [] => some s
  | l :: t =>
    match applyLabel U l s with
    | some s' => runFrom U s' t
    | none => none

/-- Run a trace from the initial state. -/
def runTrace (U : Nat → String) (t : List Label) : Option RegSt :=
  runFrom U initSt t

/-- The state a valid trace reaches (initial state when the trace is invalid;
used only to state closed concrete-run theorems). -/
def stAfter (U : Nat → String) (t : List Label) : RegSt :=
  (runTrace U t).getD initSt

/-- The inductive invariant of the pairing registry.  An entry's owner may be
`waiting` or already `timingOut` (the entry survives the deadline until the
owner's locked removal); a `pairedSecond` partner may still be `waiting` or
`timingOut` with the half in its channel, already `relaying`, or `timedOut`
with its channel closed — the last is the stale-entry match the refined
timeout modelling exposes. -/
structure RegInv (U : Nat → String) (s : RegSt) : Prop where
  regWaiting : ∀ u i, s.reg u = some i →
    U i = u ∧ (s.phase i = Phase.waiting ∨ s.phase i = Phase.timingOut) ∧
      s.chan i = ChanSt.ready
  sendingOK : ∀ i j, s.phase i = Phase.sending j →
    U i = U j ∧
      (s.phase j = Phase.waiting ∨ s.phase j = Phase.timingOut ∨
        s.phase j = Phase.timedOut) ∧
      s.reg (U j) ≠ some j ∧ (s.chan j = ChanSt.ready ∨ s.chan j = ChanSt.closed)
  senderUnique : ∀ i i' j, s.phase i = Phase.sending j → s.phase i' = Phase.sending j →
    i = i'
  pairedOK : ∀ i j, s.phase i = Phase.pairedSecond j →
    U i = U j ∧
      (((s.phase j = Phase.waiting ∨ s.phase j = Phase.timingOut) ∧
          s.chan j = ChanSt.holds i) ∨
        s.phase j = Phase.relaying i ∨
        (s.phase j = Phase.timedOut ∧ s.chan j = ChanSt.closed))
  holdsOK : ∀ j i, s.chan j = ChanSt.holds i → s.phase i = Phase.pairedSecond j
  relayingOK : ∀ j i, s.phase j = Phase.relaying i →
    s.phase i = Phase.pairedSecond j ∧ U i = U j ∧ s.chan j = ChanSt.consumed
  chanPhase : ∀ j, (s.chan j = ChanSt.ready ∨ ∃ i, s.chan j = ChanSt.holds i) ↔
    (s.phase j = Phase.waiting ∨ s.phase j = Phase.timingOut)

/-- A small concrete message used by the concrete-run theorems. -/
def m0 : Message := Message.RelayRequest [97] [98] [99]

/-- A message whose JSON payload is larger than `MAX_MESSAGE_SIZE`: its uuid
field is 2^24 letters `a`. -/
def bigMsg : Message := Message.RelayRequest (List.replicate 16777216 97) [98] [99]

/-- A stream that opens with an oversized length prefix and continues with one
valid frame. -/
def badStream : List Nat := [255, 255, 255, 255] ++ Message.to_bytes m0

/-- Identifier assignment for the concrete pairing runs: tasks 0 and 1 share
the identifier `s`, every other task presents `t`. -/
def uuidEx : Nat → String := fun k => if k ≤ 1 then "s" else "t"

/-- A complete successful pairing run: task 0 registers, task 1 claims the
entry, sends its half, task 0 receives it. -/
def exPairTrace : List Label :=
  [Label.registerWait 0, Label.tryPairFound 1 0, Label.send 1 0, Label.recv 0 1]

/-- The race run refuting C2 as stated: task 1 claims task 0's entry before
any timeout event, but task 0's timeout expires and its entry removal runs
before task 1's channel send, so task 0 fails with a timeout and task 1's
send fails. -/
def cexRaceTrace : List Label :=
  [Label.registerWait 0, Label.tryPairFound 1 0, Label.timeoutExpire 0,
    Label.timeoutRemove 0, Label.sendFail 1 0]

/-- A run in which task 0 registers and times out with no peer. -/
def exTimeoutTrace : List Label :=
  [Label.registerWait 0, Label.timeoutExpire 0, Label.timeoutRemove 0]

/-- The stale-entry run refuting C3: task 0's pairing timeout expires, then —
before task 0 reacquires the lock to remove its entry — task 1 presents the
same identifier, claims the stale entry, and its send into task 0's still-open
channel succeeds; only then does task 0 remove and bail.  Task 1 ends paired
to the timed-out task 0. -/
def cexStaleTrace : List Label :=
  [Label.registerWait 0, Label.timeoutExpire 0, Label.tryPairFound 1 0,
    Label.send 1 0, Label.timeoutRemove 0]

/-- Progress of one pairing: after task B claims task A's registry entry, the
pair is in one of three stages: B about to send, B sent and A not yet received,
or both sides done. -/
def pairingJ (A B : Nat) (s : RegSt) : Prop :=
  (s.phase B = Phase.sending A ∧ s.phase A = Phase.waiting ∧ s.chan A = ChanSt.ready) ∨
  (s.phase B = Phase.pairedSecond A ∧ s.phase A = Phase.waiting ∧ s.chan A = ChanSt.holds B) ∨
  (s.phase B = Phase.pairedSecond A ∧ s.phase A = Phase.relaying B ∧ s.chan A = ChanSt.consumed)

theorem extractFuel_congr :
    ∀ (n m : Nat) (buf : List Nat), buf.length ≤ n → buf.length ≤ m →
      extractFuel n buf = extractFuel m buf := by
  intro n
  induction n with
  | zero =>
    intro m buf hn _
    have hb : buf = [] := List.eq_nil_of_length_eq_zero (Nat.le_zero.mp hn)
    subst hb
    cases m with
    | zero => rfl
    | succ m => simp [extractFuel]
  | succ n ih =>
    intro m buf hn hm
    cases m with
    | zero =>
      have hb : buf = [] := List.eq_nil_of_length_eq_zero (Nat.le_zero.mp hm)
      subst hb
      simp [extractFuel]
    | succ m =>
      simp only [extractFuel]
      by_cases h4 : buf.length < 4
      · simp [h4]
      · simp only [h4, if_false]
        by_cases hmax : MAX_MESSAGE_SIZE < peekLen buf
        · simp [hmax]
        · simp only [hmax, if_false]
          by_cases hlen : buf.length < 4 + peekLen buf
          · simp [hlen]
          · simp only [hlen, if_false]
            have hd : (buf.drop (4 + peekLen buf)).length = buf.length - (4 + peekLen buf) :=
              List.length_drop _ _
            have h1 : (buf.drop (4 + peekLen buf)).length ≤ n := by omega
            have h2 : (buf.drop (4 + peekLen buf)).length ≤ m := by omega
            rw [ih m _ h1 h2]

theorem noClearFuel_congr :
    ∀ (n m : Nat) (buf : List Nat), buf.length ≤ n → buf.length ≤ m →
      noClearFuel n buf = noClearFuel m buf := by
  intro n
  induction n with
  | zero =>
    intro m buf hn _
    have hb : buf = [] := List.eq_nil_of_length_eq_zero (Nat.le_zero.mp hn)
    subst hb
    cases m with
    | zero => rfl
    | succ m => simp [noClearFuel]
  | succ n ih =>
    intro m buf hn hm
    cases m with
    | zero =>
      have hb : buf = [] := List.eq_nil_of_length_eq_zero (Nat.le_zero.mp hm)
      subst hb
      simp [noClearFuel]
    | succ m =>
      simp only [noClearFuel]
      by_cases h4 : buf.length < 4
      · simp [h4]
      · simp only [h4, if_false]
        by_cases hmax : MAX_MESSAGE_SIZE < peekLen buf
        · simp [hmax]
        · simp only [hmax, if_false]
          by_cases hlen : buf.length < 4 + peekLen buf
          · simp [hlen]
          · simp only [hlen, if_false]
            have hd : (buf.drop (4 + peekLen buf)).length = buf.length - (4 + peekLen buf) :=
              List.length_drop _ _
            have h1 : (buf.drop (4 + peekLen buf)).length ≤ n := by omega
            have h2 : (buf.drop (4 + peekLen buf)).length ≤ m := by omega
            rw [ih m _ h1 h2]

/-- Characteristic unfolding of the extraction loop. -/
theorem extract_eq (buf : List Nat) :
    extract buf =
      if buf.length < 4 then (buf, [])
      else if MAX_MESSAGE_SIZE < peekLen buf then ([], [])
      else if buf.length < 4 + peekLen buf then (buf, [])
      else
        ((extract (buf.drop (4 + peekLen buf))).1,
          pushMsg (Message.from_bytes (buf.take (4 + peekLen buf)))
            (extract (buf.drop (4 + peekLen buf))).2) := by
  have hup : extract buf = extractFuel (buf.length + 1) buf :=
    extractFuel_congr _ _ _ (Nat.le_refl _) (Nat.le_succ _)
  rw [hup]
  simp only [extractFuel]
  by_cases h4 : buf.length < 4
  · simp [h4]
  · simp only [h4, if_false]
    by_cases hmax : MAX_MESSAGE_SIZE < peekLen buf
    · simp [hmax]
    · simp only [hmax, if_false]
      by_cases hlen : buf.length < 4 + peekLen buf
      · simp [hlen]
      · simp only [hlen, if_false]
        have hd : (buf.drop (4 + peekLen buf)).length = buf.length - (4 + peekLen buf) :=
          List.length_drop _ _
        have h1 : (buf.drop (4 + peekLen buf)).length ≤ buf.length := by omega
        rw [extractFuel_congr buf.length _ _ h1 (Nat.le_refl _)]
        rfl

/-- Characteristic unfolding of `noClear`. -/
theorem noClear_eq (buf : List Nat) :
    noClear buf =
      if buf.length < 4 then true
      else if MAX_MESSAGE_SIZE < peekLen buf then false
      else if buf.length < 4 + peekLen buf then true
      else noClear (buf.drop (4 + peekLen buf)) := by
  have hup : noClear buf = noClearFuel (buf.length + 1) buf :=
    noClearFuel_congr _ _ _ (Nat.le_refl _) (Nat.le_succ _)
  rw [hup]
  simp only [noClearFuel]
  by_cases h4 : buf.length < 4
  · simp [h4]
  · simp only [h4, if_false]
    by_cases hmax : MAX_MESSAGE_SIZE < peekLen buf
    · simp [hmax]
    · simp only [hmax, if_false]
      by_cases hlen : buf.length < 4 + peekLen buf
      · simp [hlen]
      · simp only [hlen, if_false]
        have hd : (buf.drop (4 + peekLen buf)).length = buf.length - (4 + peekLen buf) :=
          List.length_drop _ _
        have h1 : (buf.drop (4 + peekLen buf)).length ≤ buf.length := by omega
        exact noClearFuel_congr buf.length _ _ h1 (Nat.le_refl _)

theorem peekLen_append (a b : List Nat) (h : 4 ≤ a.length) :
    peekLen (a ++ b) = peekLen a := by
  unfold peekLen
  rw [List.getD_append _ _ _ 0 (by omega), List.getD_append _ _ _ 1 (by omega),
    List.getD_append _ _ _ 2 (by omega), List.getD_append _ _ _ 3 (by omega)]

theorem be32_length (n : Nat) : (be32 n).length = 4 := by
  simp [be32]

theorem peekLen_be32 (n : Nat) (r : List Nat) (h : n < 4294967296) :
    peekLen (be32 n ++ r) = n := by
  simp only [be32, List.cons_append, List.nil_append, peekLen, List.getD_cons_zero,
    List.getD_cons_succ]
  omega

theorem dropLit_append (pre l : List Nat) : dropLit pre (pre ++ l) = some l := by
  induction pre with
  | nil => rfl
  | cons p ps ih => simp [dropLit, ih]

theorem dropLit_self (l : List Nat) : dropLit l l = some [] := by
  have h := dropLit_append l []
  rwa [List.append_nil] at h

theorem hexVal_hexDig (d : Nat) (h : d < 16) : hexVal (hexDig d) = some d := by
  unfold hexDig
  by_cases hd : d < 10
  · rw [if_pos hd]
    unfold hexVal
    rw [if_pos (by omega)]
    have he : 48 + d - 48 = d := by omega
    rw [he]
  · rw [if_neg hd]
    unfold hexVal
    rw [if_neg (by omega), if_pos (by omega)]
    have he : 87 + d - 87 = d := by omega
    rw [he]

theorem parseString_escString : ∀ (s rest : List Nat),
    parseString (escString s ++ 34 :: rest) = some (s, rest) := by
  intro s
  induction s with
  | nil =>
    intro rest
    rw [show escString [] = [] from rfl, List.nil_append, parseString.eq_def]
    simp
  | cons b t ih =>
    intro rest
    rw [show escString (b :: t) = escByte b ++ escString t from rfl, List.append_assoc]
    by_cases h34 : b = 34
    · subst h34
      rw [show escByte 34 = [92, 34] from rfl]
      simp only [List.cons_append, List.nil_append]
      rw [parseString.eq_def]
      simp [unescByte, ih]
    · by_cases h92 : b = 92
      · subst h92
        rw [show escByte 92 = [92, 92] from rfl]
        simp only [List.cons_append, List.nil_append]
        rw [parseString.eq_def]
        simp [unescByte, ih]
      · by_cases h8 : b = 8
        · subst h8
          rw [show escByte 8 = [92, 98] from rfl]
          simp only [List.cons_append, List.nil_append]
          rw [parseString.eq_def]
          simp [unescByte, ih]
        · by_cases h9 : b = 9
          · subst h9
            rw [show escByte 9 = [92, 116] from rfl]
            simp only [List.cons_append, List.nil_append]
            rw [parseString.eq_def]
            simp [unescByte, ih]
          · by_cases h10 : b = 10
            · subst h10
              rw [show escByte 10 = [92, 110] from rfl]
              simp only [List.cons_append, List.nil_append]
              rw [parseString.eq_def]
              simp [unescByte, ih]
            · by_cases h12 : b = 12
              · subst h12
                rw [show escByte 12 = [92, 102] from rfl]
                simp only [List.cons_append, List.nil_append]
                rw [parseString.eq_def]
                simp [unescByte, ih]
              · by_cases h13 : b = 13
                · subst h13
                  rw [show escByte 13 = [92, 114] from rfl]
                  simp only [List.cons_append, List.nil_append]
                  rw [parseString.eq_def]
                  simp [unescByte, ih]
                · by_cases hc : b < 32
                  · have hv0 : hexVal 48 = some 0 := by simp [hexVal]
                    have hv1 : hexVal (hexDig (b / 16)) = some (b / 16) :=
                      hexVal_hexDig _ (by omega)
                    have hv2 : hexVal (hexDig (b % 16)) = some (b % 16) :=
                      hexVal_hexDig _ (by omega)
                    simp only [escByte, h34, h92, h8, h9, h10, h12, h13, hc, if_true, if_false,
                      ite_true, ite_false, List.cons_append, List.nil_append]
                    rw [parseString.eq_def]
                    simp [hv0, hv1, hv2, ih]
                    omega
                  · simp only [escByte, h34, h92, h8, h9, h10, h12, h13, hc, if_true, if_false,
                      ite_true, ite_false, List.cons_append, List.nil_append]
                    rw [parseString.eq_def]
                    simp only [h34, h92, if_false, ite_false, ih]

theorem dropLit_openReq_openResp (l : List Nat) :
    dropLit openReq (openResp ++ l) = none := by
  simp [openReq, openResp, dropLit]

theorem dropLit_true_false (l : List Nat) :
    dropLit trueLit (falseLit ++ l) = none := by
  simp [trueLit, falseLit, dropLit]

theorem dropLit_null_quote (l : List Nat) :
    dropLit nullLit (34 :: l) = none := by
  simp [nullLit, dropLit]

theorem jsonParse_jsonSerialize (m : Message) :
    jsonParse (jsonSerialize m) = some m := by
  cases m with
  | RelayRequest u p r =>
    simp [jsonSerialize, jsonParse, dropLit_append, parseReqBody, parseString_escString,
      dropLit_self]
  | RelayResponse ok msg =>
    cases ok <;> cases msg <;>
      simp [jsonSerialize, jsonParse, dropLit_openReq_openResp, parseRespBody, parseBoolVal,
        parseOptVal, boolLit, respTail, dropLit_append, dropLit_true_false, dropLit_null_quote,
        parseString_escString, dropLit_self]

/-- C7: `Message::from_bytes` fails exactly when fewer than 4 header bytes are
present, or the declared payload length exceeds the 10 MiB maximum, or fewer
bytes than the declared length follow the header, or the payload does not
parse as a `Message`; otherwise it returns the decoded message. -/
theorem from_bytes_error_iff (data : List Nat) :
    Message.from_bytes data = none ↔
      data.length < 4 ∨ MAX_MESSAGE_SIZE < peekLen data ∨
        data.length - 4 < peekLen data ∨
        jsonParse ((data.drop 4).take (peekLen data)) = none := by
  unfold Message.from_bytes
  split_ifs with h1 h2 h3
  · simp [h1]
  · simp [h2]
  · simp [h3]
  · simp [h1, h2, h3]

/-- C10: decoding ignores bytes beyond the declared payload length: appending
any suffix to a frame that decodes successfully leaves the decoded message
unchanged. -/
theorem from_bytes_ignores_trailing (frame extra : List Nat) (m : Message)
    (h : Message.from_bytes frame = some m) :
    Message.from_bytes (frame ++ extra) = some m := by
  unfold Message.from_bytes at h ⊢
  split_ifs at h with h1 h2 h3 <;> try exact Option.noConfusion h
  · have hp : peekLen (frame ++ extra) = peekLen frame := peekLen_append _ _ (by omega)
    have hlen : (frame ++ extra).length = frame.length + extra.length := List.length_append _ _
    rw [hp]
    rw [if_neg (by omega), if_neg h2, if_neg (by omega)]
    have hdrop : (frame ++ extra).drop 4 = frame.drop 4 ++ extra :=
      List.drop_append_of_le_length (by omega)
    have htake : (frame.drop 4 ++ extra).take (peekLen frame) = (frame.drop 4).take (peekLen frame) :=
      List.take_append_of_le_length (by simp [List.length_drop]; omega)
    rw [hdrop, htake]
    exact h

/-- Witness for C10 at a concrete frame and suffix. -/
theorem from_bytes_ignores_trailing_witness :
    Message.from_bytes (Message.to_bytes (Message.RelayRequest [97] [98] [99])) =
        some (Message.RelayRequest [97] [98] [99]) ∧
      Message.from_bytes (Message.to_bytes (Message.RelayRequest [97] [98] [99]) ++ [0, 1, 2]) =
        some (Message.RelayRequest [97] [98] [99]) :=
  ⟨by decide, from_bytes_ignores_trailing _ [0, 1, 2] _ (by decide)⟩

/-- C8 (amended): for every message whose serialized payload fits the 10 MiB
frame limit, the encoded frame is the 4-byte big-endian payload length followed
by exactly the payload, and decoding it returns the original message. -/
theorem to_bytes_from_bytes (m : Message)
    (h : (jsonSerialize m).length ≤ MAX_MESSAGE_SIZE) :
    peekLen (Message.to_bytes m) = (jsonSerialize m).length ∧
      (Message.to_bytes m).drop 4 = jsonSerialize m ∧
      (Message.to_bytes m).length = 4 + (jsonSerialize m).length ∧
      Message.from_bytes (Message.to_bytes m) = some m := by
  have h' : (jsonSerialize m).length ≤ 10485760 := h
  have hp : peekLen (Message.to_bytes m) = (jsonSerialize m).length := by
    unfold Message.to_bytes
    exact peekLen_be32 _ _ (by omega)
  have hdrop : (Message.to_bytes m).drop 4 = jsonSerialize m := by
    unfold Message.to_bytes
    rw [show (4 : Nat) = (be32 (jsonSerialize m).length).length from (be32_length _).symm,
      List.drop_left]
  have hlen : (Message.to_bytes m).length = 4 + (jsonSerialize m).length := by
    unfold Message.to_bytes
    rw [List.length_append, be32_length]
  refine ⟨hp, hdrop, hlen, ?_⟩
  unfold Message.from_bytes
  rw [hp, hlen, hdrop, if_neg (by omega),
    if_neg (by show ¬ MAX_MESSAGE_SIZE < (jsonSerialize m).length; omega),
    if_neg (by omega), List.take_length]
  exact jsonParse_jsonSerialize m

/-- Witness for the amended C8 at a concrete message. -/
theorem to_bytes_from_bytes_witness :
    (jsonSerialize (Message.RelayRequest [97] [98] [99])).length ≤ MAX_MESSAGE_SIZE ∧
      Message.from_bytes (Message.to_bytes (Message.RelayRequest [97] [98] [99])) =
        some (Message.RelayRequest [97] [98] [99]) :=
  ⟨by decide, (to_bytes_from_bytes (Message.RelayRequest [97] [98] [99]) (by decide)).2.2.2⟩

theorem escString_replicate_97 (n : Nat) :
    escString (List.replicate n 97) = List.replicate n 97 := by
  induction n with
  | zero => rfl
  | succ k ih =>
    rw [List.replicate_succ, show escString (97 :: List.replicate k 97) =
      escByte 97 ++ escString (List.replicate k 97) from rfl, ih]
    rfl

theorem jsonSerialize_request_length (u p r : List Nat) :
    (jsonSerialize (Message.RelayRequest u p r)).length =
      (escString u).length + (escString p).length + (escString r).length + 51 := by
  show (openReq ++ (escString u ++ 34 ::
    (midPeer ++ (escString p ++ 34 :: (midRole ++ (escString r ++ 34 :: closeBr)))))).length = _
  simp only [List.length_append, List.length_cons, openReq, midPeer, midRole, closeBr]
  norm_num
  omega

/-- C8 (counterexample): `to_bytes` never fails, but decoding the frame it
produces for `bigMsg` fails, because the declared payload length exceeds
`MAX_MESSAGE_SIZE`.  So `decode(encode(m))` does not succeed for every m. -/
theorem roundtrip_fails_oversized_cex :
    Message.from_bytes (Message.to_bytes bigMsg) = none := by
  have hlen : (jsonSerialize bigMsg).length = 16777269 := by
    rw [show bigMsg = Message.RelayRequest (List.replicate 16777216 97) [98] [99] from rfl,
      jsonSerialize_request_length, escString_replicate_97, List.length_replicate]
    norm_num [escString, escByte]
  have hp : peekLen (Message.to_bytes bigMsg) = 16777269 := by
    unfold Message.to_bytes
    rw [hlen]
    exact peekLen_be32 _ _ (by norm_num)
  have hl2 : (Message.to_bytes bigMsg).length = 4 + 16777269 := by
    unfold Message.to_bytes
    rw [List.length_append, be32_length, hlen]
  unfold Message.from_bytes
  rw [hp, hl2, if_neg (by omega), if_pos (by show MAX_MESSAGE_SIZE < 16777269; norm_num [MAX_MESSAGE_SIZE])]

/-- C4: if, once the fed bytes are appended, the length prefix at the front of
the reassembler's buffer declares a length above `MAX_MESSAGE_SIZE`, the feed
call discards the entire buffer and produces no message. -/
theorem oversized_discards_buffer (fr : MessageFramer) (data : List Nat)
    (h4 : 4 ≤ (fr.buffer ++ data).length)
    (hov : MAX_MESSAGE_SIZE < peekLen (fr.buffer ++ data)) :
    fr.feed data = (⟨[]⟩, []) := by
  unfold MessageFramer.feed
  rw [extract_eq, if_neg (by omega), if_pos hov]

/-- Witness for C4: a frame whose prefix declares 2^32 - 1 bytes. -/
theorem oversized_discards_buffer_witness :
    4 ≤ (([] : List Nat) ++ [255, 255, 255, 255, 1, 2, 3]).length ∧
      MAX_MESSAGE_SIZE < peekLen (([] : List Nat) ++ [255, 255, 255, 255, 1, 2, 3]) ∧
      MessageFramer.feed ⟨[]⟩ [255, 255, 255, 255, 1, 2, 3] = (⟨[]⟩, []) :=
  ⟨by decide, by decide,
    oversized_discards_buffer ⟨[]⟩ [255, 255, 255, 255, 1, 2, 3] (by decide) (by decide)⟩

theorem pushMsg_append (o : Option Message) (x y : List Message) :
    pushMsg o (x ++ y) = pushMsg o x ++ y := by
  cases o <;> simp [pushMsg]

theorem noClear_append_left : ∀ (n : Nat) (a b : List Nat), a.length ≤ n →
    noClear (a ++ b) = true → noClear a = true := by
  intro n
  induction n with
  | zero =>
    intro a b ha _
    have hz : a = [] := List.eq_nil_of_length_eq_zero (Nat.le_zero.mp ha)
    subst hz
    rw [noClear_eq]
    simp
  | succ k ih =>
    intro a b ha h
    rw [noClear_eq]
    by_cases h4 : a.length < 4
    · simp [h4]
    · rw [if_neg h4]
      have hap : peekLen (a ++ b) = peekLen a := peekLen_append a b (by omega)
      have hlab : (a ++ b).length = a.length + b.length := List.length_append a b
      rw [noClear_eq] at h
      rw [if_neg (by omega), hap] at h
      by_cases hmax : MAX_MESSAGE_SIZE < peekLen a
      · rw [if_pos hmax] at h
        simp at h
      · rw [if_neg hmax] at h
        rw [if_neg hmax]
        by_cases hlen : a.length < 4 + peekLen a
        · simp [hlen]
        · rw [if_neg hlen]
          rw [if_neg (by omega), List.drop_append_of_le_length (by omega)] at h
          exact ih (a.drop (4 + peekLen a)) b (by rw [List.length_drop]; omega) h

theorem extract_res_stalled : ∀ (n : Nat) (a : List Nat), a.length ≤ n →
    extract ((extract a).1) = ((extract a).1, []) := by
  intro n
  induction n with
  | zero =>
    intro a ha
    have hz : a = [] := List.eq_nil_of_length_eq_zero (Nat.le_zero.mp ha)
    subst hz
    rw [show extract ([] : List Nat) = ([], []) from by rw [extract_eq]; simp]
    rw [extract_eq]
    simp
  | succ k ih =>
    intro a ha
    rw [extract_eq a]
    by_cases h4 : a.length < 4
    · simp only [if_pos h4]
      rw [extract_eq]
      simp [h4]
    · simp only [if_neg h4]
      by_cases hmax : MAX_MESSAGE_SIZE < peekLen a
      · simp only [if_pos hmax]
        rw [extract_eq]
        simp
      · simp only [if_neg hmax]
        by_cases hlen : a.length < 4 + peekLen a
        · simp only [if_pos hlen]
          rw [extract_eq]
          simp [h4, hmax, hlen]
        · simp only [if_neg hlen]
          exact ih (a.drop (4 + peekLen a)) (by rw [List.length_drop]; omega)

theorem noClear_extract_res : ∀ (n : Nat) (a b : List Nat), a.length ≤ n →
    noClear (a ++ b) = true → noClear ((extract a).1 ++ b) = true := by
  intro n
  induction n with
  | zero =>
    intro a b ha h
    have hz : a = [] := List.eq_nil_of_length_eq_zero (Nat.le_zero.mp ha)
    subst hz
    rw [show extract ([] : List Nat) = ([], []) from by rw [extract_eq]; simp]
    exact h
  | succ k ih =>
    intro a b ha h
    rw [extract_eq a]
    by_cases h4 : a.length < 4
    · simp only [if_pos h4]
      exact h
    · simp only [if_neg h4]
      have hap : peekLen (a ++ b) = peekLen a := peekLen_append a b (by omega)
      have hlab : (a ++ b).length = a.length + b.length := List.length_append a b
      by_cases hmax : MAX_MESSAGE_SIZE < peekLen a
      · rw [noClear_eq] at h
        rw [if_neg (by omega), hap, if_pos hmax] at h
        simp at h
      · simp only [if_neg hmax]
        by_cases hlen : a.length < 4 + peekLen a
        · simp only [if_pos hlen]
          exact h
        · simp only [if_neg hlen]
          rw [noClear_eq] at h
          rw [if_neg (by omega), hap, if_neg hmax, if_neg (by omega),
            List.drop_append_of_le_length (by omega)] at h
          exact ih (a.drop (4 + peekLen a)) b (by rw [List.length_drop]; omega) h

theorem extract_append : ∀ (n : Nat) (a b : List Nat), a.length ≤ n →
    noClear (a ++ b) = true →
    extract (a ++ b) = ((extract ((extract a).1 ++ b)).1,
      (extract a).2 ++ (extract ((extract a).1 ++ b)).2) := by
  intro n
  induction n with
  | zero =>
    intro a b ha _
    have hz : a = [] := List.eq_nil_of_length_eq_zero (Nat.le_zero.mp ha)
    subst hz
    rw [show extract ([] : List Nat) = ([], []) from by rw [extract_eq]; simp]
    simp
  | succ k ih =>
    intro a b ha h
    by_cases h4 : a.length < 4
    · have hxa : extract a = (a, []) := by rw [extract_eq]; simp [h4]
      rw [hxa]
      simp
    · have hap : peekLen (a ++ b) = peekLen a := peekLen_append a b (by omega)
      have hlab : (a ++ b).length = a.length + b.length := List.length_append a b
      by_cases hmax : MAX_MESSAGE_SIZE < peekLen a
      · rw [noClear_eq] at h
        rw [if_neg (by omega), hap, if_pos hmax] at h
        simp at h
      · by_cases hlen : a.length < 4 + peekLen a
        · have hxa : extract a = (a, []) := by rw [extract_eq]; simp [h4, hmax, hlen]
          rw [hxa]
          simp
        · have hdropab : (a ++ b).drop (4 + peekLen a) = a.drop (4 + peekLen a) ++ b :=
            List.drop_append_of_le_length (by omega)
          have htakeab : (a ++ b).take (4 + peekLen a) = a.take (4 + peekLen a) :=
            List.take_append_of_le_length (by omega)
          have hncd : noClear (a.drop (4 + peekLen a) ++ b) = true := by
            rw [noClear_eq] at h
            rw [if_neg (by omega), hap, if_neg hmax, if_neg (by omega), hdropab] at h
            exact h
          have hih := ih (a.drop (4 + peekLen a)) b (by rw [List.length_drop]; omega) hncd
          have hxa : extract a = ((extract (a.drop (4 + peekLen a))).1,
              pushMsg (Message.from_bytes (a.take (4 + peekLen a)))
                (extract (a.drop (4 + peekLen a))).2) := by
            rw [extract_eq]
            rw [if_neg h4, if_neg hmax, if_neg hlen]
          rw [extract_eq (a ++ b)]
          rw [if_neg (by omega), hap, if_neg hmax, if_neg (by omega), hdropab, htakeab]
          rw [hxa, hih]
          simp [pushMsg_append]

theorem feedAll_eq_feed : ∀ (cs : List (List Nat)) (buf : List Nat),
    extract buf = (buf, []) → noClear (buf ++ concatChunks cs) = true →
    feedAll ⟨buf⟩ cs = MessageFramer.feed ⟨buf⟩ (concatChunks cs) := by
  intro cs
  induction cs with
  | nil =>
    intro buf hstall _
    unfold MessageFramer.feed
    simp [feedAll, concatChunks, hstall]
  | cons c cs ih =>
    intro buf hstall hnc
    have hcc : concatChunks (c :: cs) = c ++ concatChunks cs := rfl
    rw [hcc] at hnc ⊢
    have hnc2 : noClear ((buf ++ c) ++ concatChunks cs) = true := by
      rw [List.append_assoc]
      exact hnc
    have hr1 : (MessageFramer.feed ⟨buf⟩ c).1 = ⟨(extract (buf ++ c)).1⟩ := rfl
    have hstall2 : extract ((extract (buf ++ c)).1) = ((extract (buf ++ c)).1, []) :=
      extract_res_stalled (buf ++ c).length _ (Nat.le_refl _)
    have hnc3 : noClear ((extract (buf ++ c)).1 ++ concatChunks cs) = true :=
      noClear_extract_res (buf ++ c).length _ _ (Nat.le_refl _) hnc2
    have hih := ih ((extract (buf ++ c)).1) hstall2 hnc3
    show ((feedAll (MessageFramer.feed ⟨buf⟩ c).1 cs).1,
      (MessageFramer.feed ⟨buf⟩ c).2 ++ (feedAll (MessageFramer.feed ⟨buf⟩ c).1 cs).2) = _
    rw [hr1, hih]
    unfold MessageFramer.feed
    rw [← List.append_assoc]
    rw [extract_append (buf ++ c).length (buf ++ c) (concatChunks cs) (Nat.le_refl _) hnc2]

/-- C1 (amended): for a byte stream on which the reassembler never hits the
oversized-prefix buffer-discard branch, feeding the stream split at any two
chunkings produces the same concatenated sequence of decoded messages. -/
theorem feed_boundary_independent (cs1 cs2 : List (List Nat)) (s : List Nat)
    (h1 : concatChunks cs1 = s) (h2 : concatChunks cs2 = s) (hnc : noClear s = true) :
    (feedAll ⟨[]⟩ cs1).2 = (feedAll ⟨[]⟩ cs2).2 := by
  have hstall : extract ([] : List Nat) = ([], []) := by rw [extract_eq]; simp
  have e1 := feedAll_eq_feed cs1 [] hstall (by rw [List.nil_append, h1]; exact hnc)
  have e2 := feedAll_eq_feed cs2 [] hstall (by rw [List.nil_append, h2]; exact hnc)
  rw [e1, e2, h1, h2]

set_option maxRecDepth 40000 in
/-- C1 (counterexample): the same byte stream fed one byte at a time versus in
a single feed call yields different decoded message sequences.  All at once,
the oversized prefix discards the whole buffer including the valid frame
behind it; one byte at a time, the discard happens when only the four prefix
bytes are buffered, and the valid frame is then decoded. -/
theorem feed_split_dependent_cex :
    concatChunks (oneBytes badStream) = badStream ∧
      concatChunks [badStream] = badStream ∧
      (feedAll ⟨[]⟩ (oneBytes badStream)).2 = [m0] ∧
      (feedAll ⟨[]⟩ [badStream]).2 = [] ∧
      (feedAll ⟨[]⟩ (oneBytes badStream)).2 ≠ (feedAll ⟨[]⟩ [badStream]).2 := by
  refine ⟨by decide, by decide, by decide, by decide, by decide⟩

set_option maxRecDepth 40000 in
/-- Witness for the amended C1: a valid frame split into single bytes versus
fed whole decodes identically. -/
theorem feed_boundary_independent_witness :
    concatChunks (oneBytes (Message.to_bytes m0)) = Message.to_bytes m0 ∧
      concatChunks [Message.to_bytes m0] = Message.to_bytes m0 ∧
      noClear (Message.to_bytes m0) = true ∧
      (feedAll ⟨[]⟩ (oneBytes (Message.to_bytes m0))).2 = (feedAll ⟨[]⟩ [Message.to_bytes m0]).2 :=
  ⟨by decide, by decide, by decide,
    feed_boundary_independent (oneBytes (Message.to_bytes m0)) [Message.to_bytes m0]
      (Message.to_bytes m0) (by decide) (by decide) (by decide)⟩

/-- C5: whatever events occur before the first terminal event (zero-byte read,
read error, or failed write), the proxy loop writes exactly the chunks read
from conn1, verbatim and in order, to conn2 and vice versa; the first terminal
event on either direction stops the whole session, and every event after it —
on both directions — is ignored. -/
theorem relay_verbatim_until_first_failure (pre post : List (Bool × ProxyEv))
    (t : Bool × ProxyEv)
    (hpre : ∀ e ∈ pre, isGood e = true) (ht : isGood t = false) :
    runProxy (pre ++ t :: post) = (sentBytes true pre, sentBytes false pre, stopOf t) := by
  induction pre with
  | nil =>
    rcases t with ⟨side, ev⟩
    cases ev with
    | chunk d wok =>
      simp only [isGood] at ht
      simp [runProxy, sentBytes, stopOf, ht]
    | closed => simp [runProxy, sentBytes, stopOf]
    | rerror => simp [runProxy, sentBytes, stopOf]
  | cons e rest ih =>
    have hg : isGood e = true := hpre e (List.mem_cons_self e rest)
    have hrest : ∀ x ∈ rest, isGood x = true := fun x hx => hpre x (List.mem_cons_of_mem e hx)
    rcases e with ⟨side, ev⟩
    cases ev with
    | chunk d wok =>
      simp only [isGood] at hg
      subst hg
      cases side <;>
        simp [runProxy, sentBytes, ih hrest, List.append_assoc]
    | closed => simp [isGood] at hg
    | rerror => simp [isGood] at hg

/-- Witness for C5 at a concrete event sequence: two forwarded chunks, then
conn1 closes, and a later event is ignored. -/
theorem relay_verbatim_witness :
    runProxy ([((true : Bool), ProxyEv.chunk [1, 2] true), ((false : Bool), ProxyEv.chunk [3] true)] ++
        ((true : Bool), ProxyEv.closed) :: [((false : Bool), ProxyEv.chunk [9] true)]) =
      ([1, 2], [3], ProxyStop.closedBy true) := by
  rw [relay_verbatim_until_first_failure _ _ _ (by decide) (by decide)]
  decide

/-- C9: the initial handshake read fails whenever the declared payload length
exceeds 1 MiB — whatever bytes follow the prefix, so before any payload byte
is interpreted — and this cap is stricter than the general 10 MiB codec limit;
it also fails when the decoded message is a RelayResponse rather than a
RelayRequest. -/
theorem handshake_strict_cap_and_variant :
    (∀ input : List Nat, 4 ≤ input.length → 1024 * 1024 < peekLen input →
      read_relay_request input = none) ∧
    (∀ (input : List Nat) (b : Bool) (o : Option (List Nat)),
      jsonParse ((input.drop 4).take (peekLen input)) = some (Message.RelayResponse b o) →
      read_relay_request input = none) ∧
    1024 * 1024 < MAX_MESSAGE_SIZE := by
  refine ⟨?_, ?_, by norm_num [MAX_MESSAGE_SIZE]⟩
  · intro input h4 hcap
    unfold read_relay_request
    rw [if_neg (by omega), if_pos hcap]
  · intro input b o hp
    unfold read_relay_request
    split_ifs with h1 h2 h3
    · rfl
    · rfl
    · rfl
    · rw [hp]

/-- Witness for C9: a bare prefix declaring 2^20 + 1 bytes is rejected with no
payload present, and a well-formed frame carrying a RelayResponse is rejected
as the wrong variant. -/
theorem handshake_strict_cap_witness :
    read_relay_request [0, 16, 0, 1] = none ∧
      read_relay_request (Message.to_bytes (Message.RelayResponse true none)) = none :=
  ⟨handshake_strict_cap_and_variant.1 [0, 16, 0, 1] (by decide) (by decide),
    handshake_strict_cap_and_variant.2.1 (Message.to_bytes (Message.RelayResponse true none))
      true none (by decide)⟩

theorem upd_same {α β : Type} [DecidableEq α] (f : α → β) (a : α) (b : β) :
    upd f a b a = b := by
  simp [upd]

theorem upd_ne {α β : Type} [DecidableEq α] (f : α → β) (a x : α) (b : β) (h : x ≠ a) :
    upd f a b x = f x := by
  simp [upd, h]

theorem regInv_init (U : Nat → String) : RegInv U initSt := by
  refine ⟨?_, ?_, ?_, ?_, ?_, ?_, ?_⟩ <;> intro a
  · intro i h
    exact Option.noConfusion h
  · intro j h
    exact Phase.noConfusion h
  · intro i' j h
    exact Phase.noConfusion h
  · intro j h
    exact Phase.noConfusion h
  · intro i h
    exact ChanSt.noConfusion h
  · intro i h
    exact Phase.noConfusion h
  · constructor
    · rintro (h | ⟨i, h⟩) <;> exact ChanSt.noConfusion h
    · rintro (h | h) <;> exact Phase.noConfusion h

theorem regInv_step_register (U : Nat → String) (s s' : RegSt) (i : Nat)
    (hinv : RegInv U s)
    (hstep : applyLabel U (Label.registerWait i) s = some s') : RegInv U s' := by
  simp only [applyLabel] at hstep
  rcases hpi : s.phase i with _ | _ | _ | j2 | j2 | j2 | _ | _ <;> rw [hpi] at hstep <;>
    try exact Option.noConfusion hstep
  rcases hreg : s.reg (U i) with _ | j' <;> rw [hreg] at hstep
  case some => exact Option.noConfusion hstep
  injection hstep with hstep
  subst hstep
  refine ⟨?_, ?_, ?_, ?_, ?_, ?_, ?_⟩
  · -- regWaiting
    intro u i2 h
    dsimp only at h ⊢
    by_cases hu : u = U i
    · subst hu
      rw [upd_same] at h
      injection h with h
      subst h
      exact ⟨rfl, Or.inl (upd_same _ _ _), upd_same _ _ _⟩
    · rw [upd_ne _ _ _ _ hu] at h
      obtain ⟨hU2, hph2, hch2⟩ := hinv.regWaiting u i2 h
      have hne : i2 ≠ i := by
        intro he
        subst he
        rcases hph2 with hx | hx <;> rw [hpi] at hx <;> exact Phase.noConfusion hx
      exact ⟨hU2, by rw [upd_ne _ _ _ _ hne]; exact hph2,
        by rw [upd_ne _ _ _ _ hne]; exact hch2⟩
  · -- sendingOK
    intro i2 j2 h
    dsimp only at h ⊢
    by_cases hi2 : i2 = i
    · subst hi2
      rw [upd_same] at h
      exact Phase.noConfusion h
    · rw [upd_ne _ _ _ _ hi2] at h
      obtain ⟨hU2, hpj2, hrj2, hcj2⟩ := hinv.sendingOK i2 j2 h
      have hji : j2 ≠ i := by
        intro he
        subst he
        rcases hpj2 with hx | hx | hx <;> rw [hpi] at hx <;> exact Phase.noConfusion hx
      refine ⟨hU2, by rw [upd_ne _ _ _ _ hji]; exact hpj2, ?_,
        by rw [upd_ne _ _ _ _ hji]; exact hcj2⟩
      by_cases hu : U j2 = U i
      · rw [hu, upd_same]
        intro hx
        injection hx with hx
        exact hji hx.symm
      · rw [upd_ne _ _ _ _ hu]
        exact hrj2
  · -- senderUnique
    intro i2 i3 j2 h h'
    dsimp only at h h'
    by_cases hi2 : i2 = i
    · subst hi2
      rw [upd_same] at h
      exact Phase.noConfusion h
    · by_cases hi3 : i3 = i
      · subst hi3
        rw [upd_same] at h'
        exact Phase.noConfusion h'
      · rw [upd_ne _ _ _ _ hi2] at h
        rw [upd_ne _ _ _ _ hi3] at h'
        exact hinv.senderUnique i2 i3 j2 h h'
  · -- pairedOK
    intro i2 j2 h
    dsimp only at h ⊢
    by_cases hi2 : i2 = i
    · subst hi2
      rw [upd_same] at h
      exact Phase.noConfusion h
    · rw [upd_ne _ _ _ _ hi2] at h
      obtain ⟨hU2, hdisj⟩ := hinv.pairedOK i2 j2 h
      have hji : j2 ≠ i := by
        intro he
        subst he
        rcases hdisj with ⟨hw, _⟩ | hr | ⟨ht, _⟩
        · rcases hw with hx | hx <;> rw [hpi] at hx <;> exact Phase.noConfusion hx
        · rw [hpi] at hr
          exact Phase.noConfusion hr
        · rw [hpi] at ht
          exact Phase.noConfusion ht
      refine ⟨hU2, ?_⟩
      rw [upd_ne _ _ _ _ hji, upd_ne _ _ _ _ hji]
      exact hdisj
  · -- holdsOK
    intro j2 i2 h
    dsimp only at h ⊢
    by_cases hj2 : j2 = i
    · subst hj2
      rw [upd_same] at h
      exact ChanSt.noConfusion h
    · rw [upd_ne _ _ _ _ hj2] at h
      have hp2 := hinv.holdsOK j2 i2 h
      have hne : i2 ≠ i := by
        intro he
        subst he
        rw [hpi] at hp2
        exact Phase.noConfusion hp2
      rw [upd_ne _ _ _ _ hne]
      exact hp2
  · -- relayingOK
    intro j2 i2 h
    dsimp only at h ⊢
    by_cases hj2 : j2 = i
    · subst hj2
      rw [upd_same] at h
      exact Phase.noConfusion h
    · rw [upd_ne _ _ _ _ hj2] at h
      obtain ⟨hp2, hU2, hc2⟩ := hinv.relayingOK j2 i2 h
      have hne : i2 ≠ i := by
        intro he
        subst he
        rw [hpi] at hp2
        exact Phase.noConfusion hp2
      exact ⟨by rw [upd_ne _ _ _ _ hne]; exact hp2, hU2,
        by rw [upd_ne _ _ _ _ hj2]; exact hc2⟩
  · -- chanPhase
    intro j2
    dsimp only
    by_cases hj2 : j2 = i
    · subst hj2
      rw [upd_same, upd_same]
      simp
    · rw [upd_ne _ _ _ _ hj2, upd_ne _ _ _ _ hj2]
      exact hinv.chanPhase j2

theorem regInv_step_tryPair (U : Nat → String) (s s' : RegSt) (i j : Nat)
    (hinv : RegInv U s)
    (hstep : applyLabel U (Label.tryPairFound i j) s = some s') : RegInv U s' := by
  simp only [applyLabel] at hstep
  rcases hpi : s.phase i with _ | _ | _ | j2 | j2 | j2 | _ | _ <;> rw [hpi] at hstep <;>
    try exact Option.noConfusion hstep
  rcases hreg : s.reg (U i) with _ | j' <;> rw [hreg] at hstep
  case none => exact Option.noConfusion hstep
  dsimp only at hstep
  by_cases hj : j' = j
  case neg => rw [if_neg hj] at hstep; exact Option.noConfusion hstep
  subst hj
  rw [if_pos rfl] at hstep
  injection hstep with hstep
  subst hstep
  obtain ⟨hUj, hpj, hcj⟩ := hinv.regWaiting (U i) j' hreg
  have hij : i ≠ j' := by
    intro he
    subst he
    rcases hpj with hx | hx <;> rw [hpi] at hx <;> exact Phase.noConfusion hx
  refine ⟨?_, ?_, ?_, ?_, ?_, ?_, ?_⟩
  · -- regWaiting
    intro u i2 h
    dsimp only at h ⊢
    by_cases hu : u = U i
    · subst hu
      rw [upd_same] at h
      exact Option.noConfusion h
    · rw [upd_ne _ _ _ _ hu] at h
      obtain ⟨hU2, hph2, hch2⟩ := hinv.regWaiting u i2 h
      have hne : i2 ≠ i := by
        intro he
        subst he
        rcases hph2 with hx | hx <;> rw [hpi] at hx <;> exact Phase.noConfusion hx
      exact ⟨hU2, by rw [upd_ne _ _ _ _ hne]; exact hph2, hch2⟩
  · -- sendingOK
    intro i2 j2 h
    dsimp only at h ⊢
    by_cases hi2 : i2 = i
    · subst hi2
      rw [upd_same] at h
      injection h with h
      subst h
      refine ⟨hUj.symm, ?_, ?_, Or.inl hcj⟩
      · rw [upd_ne _ _ _ _ (Ne.symm hij)]
        rcases hpj with hx | hx
        · exact Or.inl hx
        · exact Or.inr (Or.inl hx)
      · rw [hUj, upd_same]
        simp
    · rw [upd_ne _ _ _ _ hi2] at h
      obtain ⟨hU2, hpj2, hrj2, hcj2⟩ := hinv.sendingOK i2 j2 h
      have hji : j2 ≠ i := by
        intro he
        subst he
        rcases hpj2 with hx | hx | hx <;> rw [hpi] at hx <;> exact Phase.noConfusion hx
      refine ⟨hU2, by rw [upd_ne _ _ _ _ hji]; exact hpj2, ?_, hcj2⟩
      by_cases hu : U j2 = U i
      · rw [hu, upd_same]
        simp
      · rw [upd_ne _ _ _ _ hu]
        exact hrj2
  · -- senderUnique
    intro i2 i3 j2 h h'
    dsimp only at h h'
    by_cases hi2 : i2 = i
    · by_cases hi3 : i3 = i
      · rw [hi2, hi3]
      · subst hi2
        rw [upd_same] at h
        injection h with h
        subst h
        rw [upd_ne _ _ _ _ hi3] at h'
        obtain ⟨_, _, hrj3, _⟩ := hinv.sendingOK i3 j' h'
        exact absurd (by rw [hUj]; exact hreg) hrj3
    · by_cases hi3 : i3 = i
      · subst hi3
        rw [upd_same] at h'
        injection h' with h'
        subst h'
        rw [upd_ne _ _ _ _ hi2] at h
        obtain ⟨_, _, hrj2, _⟩ := hinv.sendingOK i2 j' h
        exact absurd (by rw [hUj]; exact hreg) hrj2
      · rw [upd_ne _ _ _ _ hi2] at h
        rw [upd_ne _ _ _ _ hi3] at h'
        exact hinv.senderUnique i2 i3 j2 h h'
  · -- pairedOK
    intro i2 j2 h
    dsimp only at h ⊢
    by_cases hi2 : i2 = i
    · subst hi2
      rw [upd_same] at h
      exact Phase.noConfusion h
    · rw [upd_ne _ _ _ _ hi2] at h
      obtain ⟨hU2, hdisj⟩ := hinv.pairedOK i2 j2 h
      have hji : j2 ≠ i := by
        intro he
        subst he
        rcases hdisj with ⟨hw, _⟩ | hr | ⟨ht, _⟩
        · rcases hw with hx | hx <;> rw [hpi] at hx <;> exact Phase.noConfusion hx
        · rw [hpi] at hr
          exact Phase.noConfusion hr
        · rw [hpi] at ht
          exact Phase.noConfusion ht
      refine ⟨hU2, ?_⟩
      rw [upd_ne _ _ _ _ hji]
      exact hdisj
  · -- holdsOK
    intro j2 i2 h
    dsimp only at h ⊢
    have hp2 := hinv.holdsOK j2 i2 h
    have hne : i2 ≠ i := by
      intro he
      subst he
      rw [hpi] at hp2
      exact Phase.noConfusion hp2
    rw [upd_ne _ _ _ _ hne]
    exact hp2
  · -- relayingOK
    intro j2 i2 h
    dsimp only at h ⊢
    by_cases hj2 : j2 = i
    · subst hj2
      rw [upd_same] at h
      exact Phase.noConfusion h
    · rw [upd_ne _ _ _ _ hj2] at h
      obtain ⟨hp2, hU2, hc2⟩ := hinv.relayingOK j2 i2 h
      have hne : i2 ≠ i := by
        intro he
        subst he
        rw [hpi] at hp2
        exact Phase.noConfusion hp2
      exact ⟨by rw [upd_ne _ _ _ _ hne]; exact hp2, hU2, hc2⟩
  · -- chanPhase
    intro j2
    dsimp only
    by_cases hj2 : j2 = i
    · subst hj2
      rw [upd_same]
      constructor
      · intro hl
        rcases (hinv.chanPhase j2).mp hl with hx | hx <;> rw [hpi] at hx <;>
          exact Phase.noConfusion hx
      · rintro (hr | hr) <;> exact Phase.noConfusion hr
    · rw [upd_ne _ _ _ _ hj2]
      exact hinv.chanPhase j2
theorem regInv_step_send (U : Nat → String) (s s' : RegSt) (i j : Nat)
    (hinv : RegInv U s)
    (hstep : applyLabel U (Label.send i j) s = some s') : RegInv U s' := by
  simp only [applyLabel] at hstep
  rcases hpi : s.phase i with _ | _ | _ | j' | j2 | j2 | _ | _ <;> rw [hpi] at hstep <;>
    try exact Option.noConfusion hstep
  rcases hcj : s.chan j with _ | _ | i' | _ | _ <;> rw [hcj] at hstep <;>
    try exact Option.noConfusion hstep
  dsimp only at hstep
  by_cases hj : j' = j
  case neg => rw [if_neg hj] at hstep; exact Option.noConfusion hstep
  subst hj
  rw [if_pos rfl] at hstep
  injection hstep with hstep
  subst hstep
  have hpjw := (hinv.chanPhase j').mp (Or.inl hcj)
  obtain ⟨hUij, _, hrj, _⟩ := hinv.sendingOK i j' hpi
  have hij : i ≠ j' := by
    intro he
    subst he
    rcases hpjw with hx | hx <;> rw [hpi] at hx <;> exact Phase.noConfusion hx
  refine ⟨?_, ?_, ?_, ?_, ?_, ?_, ?_⟩
  · -- regWaiting
    intro u i2 h
    dsimp only at h ⊢
    obtain ⟨hU2, hph2, hch2⟩ := hinv.regWaiting u i2 h
    have hne_i : i2 ≠ i := by
      intro he
      subst he
      rcases hph2 with hx | hx <;> rw [hpi] at hx <;> exact Phase.noConfusion hx
    have hne_j : i2 ≠ j' := by
      intro he
      subst he
      rw [← hU2] at h
      exact hrj h
    exact ⟨hU2, by rw [upd_ne _ _ _ _ hne_i]; exact hph2,
      by rw [upd_ne _ _ _ _ hne_j]; exact hch2⟩
  · -- sendingOK
    intro i2 j2 h
    dsimp only at h ⊢
    by_cases hi2 : i2 = i
    · subst hi2
      rw [upd_same] at h
      exact Phase.noConfusion h
    · rw [upd_ne _ _ _ _ hi2] at h
      obtain ⟨hU2, hpj2, hrj2, hcj2⟩ := hinv.sendingOK i2 j2 h
      have hji : j2 ≠ i := by
        intro he
        subst he
        rcases hpj2 with hx | hx | hx <;> rw [hpi] at hx <;> exact Phase.noConfusion hx
      have hj2j : j2 ≠ j' := by
        intro he
        subst he
        exact hi2 (hinv.senderUnique i2 i j2 h hpi)
      exact ⟨hU2, by rw [upd_ne _ _ _ _ hji]; exact hpj2, hrj2,
        by rw [upd_ne _ _ _ _ hj2j]; exact hcj2⟩
  · -- senderUnique
    intro i2 i3 j2 h h'
    dsimp only at h h'
    by_cases hi2 : i2 = i
    · subst hi2
      rw [upd_same] at h
      exact Phase.noConfusion h
    · by_cases hi3 : i3 = i
      · subst hi3
        rw [upd_same] at h'
        exact Phase.noConfusion h'
      · rw [upd_ne _ _ _ _ hi2] at h
        rw [upd_ne _ _ _ _ hi3] at h'
        exact hinv.senderUnique i2 i3 j2 h h'
  · -- pairedOK
    intro i2 j2 h
    dsimp only at h ⊢
    by_cases hi2 : i2 = i
    · subst hi2
      rw [upd_same] at h
      injection h with h
      subst h
      refine ⟨hUij, Or.inl ⟨?_, ?_⟩⟩
      · rw [upd_ne _ _ _ _ (Ne.symm hij)]
        exact hpjw
      · rw [upd_same]
    · rw [upd_ne _ _ _ _ hi2] at h
      obtain ⟨hU2, hdisj⟩ := hinv.pairedOK i2 j2 h
      rcases hdisj with ⟨hw, hold⟩ | hr | ⟨ht, hcl⟩
      · have hj2j : j2 ≠ j' := by
          intro he
          subst he
          rw [hcj] at hold
          exact ChanSt.noConfusion hold
        have hj2i : j2 ≠ i := by
          intro he
          subst he
          rcases hw with hx | hx <;> rw [hpi] at hx <;> exact Phase.noConfusion hx
        exact ⟨hU2, Or.inl ⟨by rw [upd_ne _ _ _ _ hj2i]; exact hw,
          by rw [upd_ne _ _ _ _ hj2j]; exact hold⟩⟩
      · have hj2i : j2 ≠ i := by
          intro he
          subst he
          rw [hpi] at hr
          exact Phase.noConfusion hr
        exact ⟨hU2, Or.inr (Or.inl (by rw [upd_ne _ _ _ _ hj2i]; exact hr))⟩
      · have hj2i : j2 ≠ i := by
          intro he
          subst he
          rw [hpi] at ht
          exact Phase.noConfusion ht
        have hj2j : j2 ≠ j' := by
          intro he
          subst he
          rw [hcj] at hcl
          exact ChanSt.noConfusion hcl
        exact ⟨hU2, Or.inr (Or.inr ⟨by rw [upd_ne _ _ _ _ hj2i]; exact ht,
          by rw [upd_ne _ _ _ _ hj2j]; exact hcl⟩)⟩
  · -- holdsOK
    intro j2 i2 h
    dsimp only at h ⊢
    by_cases hj2 : j2 = j'
    · subst hj2
      rw [upd_same] at h
      injection h with h
      subst h
      rw [upd_same]
    · rw [upd_ne _ _ _ _ hj2] at h
      have hp2 := hinv.holdsOK j2 i2 h
      have hne : i2 ≠ i := by
        intro he
        subst he
        rw [hpi] at hp2
        exact Phase.noConfusion hp2
      rw [upd_ne _ _ _ _ hne]
      exact hp2
  · -- relayingOK
    intro j2 i2 h
    dsimp only at h ⊢
    by_cases hj2 : j2 = i
    · subst hj2
      rw [upd_same] at h
      exact Phase.noConfusion h
    · rw [upd_ne _ _ _ _ hj2] at h
      obtain ⟨hp2, hU2, hc2⟩ := hinv.relayingOK j2 i2 h
      have hne : i2 ≠ i := by
        intro he
        subst he
        rw [hpi] at hp2
        exact Phase.noConfusion hp2
      have hj2j : j2 ≠ j' := by
        intro he
        subst he
        rw [hcj] at hc2
        exact ChanSt.noConfusion hc2
      exact ⟨by rw [upd_ne _ _ _ _ hne]; exact hp2, hU2,
        by rw [upd_ne _ _ _ _ hj2j]; exact hc2⟩
  · -- chanPhase
    intro j2
    dsimp only
    by_cases hj2 : j2 = j'
    · subst hj2
      rw [upd_same, upd_ne _ _ _ _ (Ne.symm hij)]
      constructor
      · intro _
        exact hpjw
      · intro _
        exact Or.inr ⟨i, rfl⟩
    · rw [upd_ne _ _ _ _ hj2]
      by_cases hji : j2 = i
      · subst hji
        rw [upd_same]
        constructor
        · intro hl
          rcases (hinv.chanPhase j2).mp hl with hx | hx <;> rw [hpi] at hx <;>
            exact Phase.noConfusion hx
        · rintro (hr | hr) <;> exact Phase.noConfusion hr
      · rw [upd_ne _ _ _ _ hji]
        exact hinv.chanPhase j2

theorem regInv_step_sendFail (U : Nat → String) (s s' : RegSt) (i j : Nat)
    (hinv : RegInv U s)
    (hstep : applyLabel U (Label.sendFail i j) s = some s') : RegInv U s' := by
  simp only [applyLabel] at hstep
  rcases hpi : s.phase i with _ | _ | _ | j' | j2 | j2 | _ | _ <;> rw [hpi] at hstep <;>
    try exact Option.noConfusion hstep
  rcases hcj : s.chan j with _ | _ | i' | _ | _ <;> rw [hcj] at hstep <;>
    try exact Option.noConfusion hstep
  dsimp only at hstep
  by_cases hj : j' = j
  case neg => rw [if_neg hj] at hstep; exact Option.noConfusion hstep
  subst hj
  rw [if_pos rfl] at hstep
  injection hstep with hstep
  subst hstep
  refine ⟨?_, ?_, ?_, ?_, ?_, ?_, ?_⟩
  · -- regWaiting
    intro u i2 h
    dsimp only at h ⊢
    obtain ⟨hU2, hph2, hch2⟩ := hinv.regWaiting u i2 h
    have hne : i2 ≠ i := by
      intro he
      subst he
      rcases hph2 with hx | hx <;> rw [hpi] at hx <;> exact Phase.noConfusion hx
    exact ⟨hU2, by rw [upd_ne _ _ _ _ hne]; exact hph2, hch2⟩
  · -- sendingOK
    intro i2 j2 h
    dsimp only at h ⊢
    by_cases hi2 : i2 = i
    · subst hi2
      rw [upd_same] at h
      exact Phase.noConfusion h
    · rw [upd_ne _ _ _ _ hi2] at h
      obtain ⟨hU2, hpj2, hrj2, hcj2⟩ := hinv.sendingOK i2 j2 h
      have hji : j2 ≠ i := by
        intro he
        subst he
        rcases hpj2 with hx | hx | hx <;> rw [hpi] at hx <;> exact Phase.noConfusion hx
      exact ⟨hU2, by rw [upd_ne _ _ _ _ hji]; exact hpj2, hrj2, hcj2⟩
  · -- senderUnique
    intro i2 i3 j2 h h'
    dsimp only at h h'
    by_cases hi2 : i2 = i
    · subst hi2
      rw [upd_same] at h
      exact Phase.noConfusion h
    · by_cases hi3 : i3 = i
      · subst hi3
        rw [upd_same] at h'
        exact Phase.noConfusion h'
      · rw [upd_ne _ _ _ _ hi2] at h
        rw [upd_ne _ _ _ _ hi3] at h'
        exact hinv.senderUnique i2 i3 j2 h h'
  · -- pairedOK
    intro i2 j2 h
    dsimp only at h ⊢
    by_cases hi2 : i2 = i
    · subst hi2
      rw [upd_same] at h
      exact Phase.noConfusion h
    · rw [upd_ne _ _ _ _ hi2] at h
      obtain ⟨hU2, hdisj⟩ := hinv.pairedOK i2 j2 h
      have hji : j2 ≠ i := by
        intro he
        subst he
        rcases hdisj with ⟨hw, _⟩ | hr | ⟨ht, _⟩
        · rcases hw with hx | hx <;> rw [hpi] at hx <;> exact Phase.noConfusion hx
        · rw [hpi] at hr
          exact Phase.noConfusion hr
        · rw [hpi] at ht
          exact Phase.noConfusion ht
      refine ⟨hU2, ?_⟩
      rw [upd_ne _ _ _ _ hji]
      exact hdisj
  · -- holdsOK
    intro j2 i2 h
    dsimp only at h ⊢
    have hp2 := hinv.holdsOK j2 i2 h
    have hne : i2 ≠ i := by
      intro he
      subst he
      rw [hpi] at hp2
      exact Phase.noConfusion hp2
    rw [upd_ne _ _ _ _ hne]
    exact hp2
  · -- relayingOK
    intro j2 i2 h
    dsimp only at h ⊢
    by_cases hj2 : j2 = i
    · subst hj2
      rw [upd_same] at h
      exact Phase.noConfusion h
    · rw [upd_ne _ _ _ _ hj2] at h
      obtain ⟨hp2, hU2, hc2⟩ := hinv.relayingOK j2 i2 h
      have hne : i2 ≠ i := by
        intro he
        subst he
        rw [hpi] at hp2
        exact Phase.noConfusion hp2
      exact ⟨by rw [upd_ne _ _ _ _ hne]; exact hp2, hU2, hc2⟩
  · -- chanPhase
    intro j2
    dsimp only
    by_cases hj2 : j2 = i
    · subst hj2
      rw [upd_same]
      constructor
      · intro hl
        rcases (hinv.chanPhase j2).mp hl with hx | hx <;> rw [hpi] at hx <;>
          exact Phase.noConfusion hx
      · rintro (hr | hr) <;> exact Phase.noConfusion hr
    · rw [upd_ne _ _ _ _ hj2]
      exact hinv.chanPhase j2
theorem regInv_step_recv (U : Nat → String) (s s' : RegSt) (j i : Nat)
    (hinv : RegInv U s)
    (hstep : applyLabel U (Label.recv j i) s = some s') : RegInv U s' := by
  simp only [applyLabel] at hstep
  rcases hpj : s.phase j with _ | _ | _ | j2 | j2 | j2 | _ | _ <;> rw [hpj] at hstep <;>
    try exact Option.noConfusion hstep
  rcases hcj : s.chan j with _ | _ | i' | _ | _ <;> rw [hcj] at hstep <;>
    try exact Option.noConfusion hstep
  dsimp only at hstep
  by_cases hi : i' = i
  case neg => rw [if_neg hi] at hstep; exact Option.noConfusion hstep
  subst hi
  rw [if_pos rfl] at hstep
  injection hstep with hstep
  subst hstep
  have hpi2 : s.phase i' = Phase.pairedSecond j := hinv.holdsOK j i' hcj
  have hij : i' ≠ j := by
    intro he
    rw [he, hpj] at hpi2
    exact Phase.noConfusion hpi2
  have hU := (hinv.pairedOK i' j hpi2).1
  refine ⟨?_, ?_, ?_, ?_, ?_, ?_, ?_⟩
  · -- regWaiting
    intro u i2 h
    dsimp only at h ⊢
    obtain ⟨hU2, hph2, hch2⟩ := hinv.regWaiting u i2 h
    have hne : i2 ≠ j := by
      intro he
      subst he
      rw [hcj] at hch2
      exact ChanSt.noConfusion hch2
    exact ⟨hU2, by rw [upd_ne _ _ _ _ hne]; exact hph2,
      by rw [upd_ne _ _ _ _ hne]; exact hch2⟩
  · -- sendingOK
    intro i2 j2 h
    dsimp only at h ⊢
    by_cases hi2 : i2 = j
    · subst hi2
      rw [upd_same] at h
      exact Phase.noConfusion h
    · rw [upd_ne _ _ _ _ hi2] at h
      obtain ⟨hU2, hpj2, hrj2, hcj2⟩ := hinv.sendingOK i2 j2 h
      have hj2j : j2 ≠ j := by
        intro he
        subst he
        rcases hcj2 with hx | hx <;> rw [hcj] at hx <;> exact ChanSt.noConfusion hx
      exact ⟨hU2, by rw [upd_ne _ _ _ _ hj2j]; exact hpj2, hrj2,
        by rw [upd_ne _ _ _ _ hj2j]; exact hcj2⟩
  · -- senderUnique
    intro i2 i3 j2 h h'
    dsimp only at h h'
    by_cases hi2 : i2 = j
    · subst hi2
      rw [upd_same] at h
      exact Phase.noConfusion h
    · by_cases hi3 : i3 = j
      · subst hi3
        rw [upd_same] at h'
        exact Phase.noConfusion h'
      · rw [upd_ne _ _ _ _ hi2] at h
        rw [upd_ne _ _ _ _ hi3] at h'
        exact hinv.senderUnique i2 i3 j2 h h'
  · -- pairedOK
    intro i2 j2 h
    dsimp only at h ⊢
    by_cases hi2 : i2 = j
    · subst hi2
      rw [upd_same] at h
      exact Phase.noConfusion h
    · rw [upd_ne _ _ _ _ hi2] at h
      obtain ⟨hU2, hdisj⟩ := hinv.pairedOK i2 j2 h
      rcases hdisj with ⟨hw, hold⟩ | hr | ⟨ht, hcl⟩
      · by_cases hj2 : j2 = j
        · subst hj2
          rw [hcj] at hold
          injection hold with hold
          subst hold
          exact ⟨hU2, Or.inr (Or.inl (by rw [upd_same]))⟩
        · exact ⟨hU2, Or.inl ⟨by rw [upd_ne _ _ _ _ hj2]; exact hw,
            by rw [upd_ne _ _ _ _ hj2]; exact hold⟩⟩
      · have hj2j : j2 ≠ j := by
          intro he
          subst he
          rw [hpj] at hr
          exact Phase.noConfusion hr
        exact ⟨hU2, Or.inr (Or.inl (by rw [upd_ne _ _ _ _ hj2j]; exact hr))⟩
      · have hj2j : j2 ≠ j := by
          intro he
          subst he
          rw [hpj] at ht
          exact Phase.noConfusion ht
        exact ⟨hU2, Or.inr (Or.inr ⟨by rw [upd_ne _ _ _ _ hj2j]; exact ht,
          by rw [upd_ne _ _ _ _ hj2j]; exact hcl⟩)⟩
  · -- holdsOK
    intro j2 i2 h
    dsimp only at h ⊢
    by_cases hj2 : j2 = j
    · subst hj2
      rw [upd_same] at h
      exact ChanSt.noConfusion h
    · rw [upd_ne _ _ _ _ hj2] at h
      have hp2 := hinv.holdsOK j2 i2 h
      have hne : i2 ≠ j := by
        intro he
        subst he
        rw [hpj] at hp2
        exact Phase.noConfusion hp2
      rw [upd_ne _ _ _ _ hne]
      exact hp2
  · -- relayingOK
    intro j2 i2 h
    dsimp only at h ⊢
    by_cases hj2 : j2 = j
    · subst hj2
      rw [upd_same] at h
      injection h with h
      subst h
      exact ⟨by rw [upd_ne _ _ _ _ hij]; exact hpi2, hU, by rw [upd_same]⟩
    · rw [upd_ne _ _ _ _ hj2] at h
      obtain ⟨hp2, hU2, hc2⟩ := hinv.relayingOK j2 i2 h
      have hne : i2 ≠ j := by
        intro he
        subst he
        rw [hpj] at hp2
        exact Phase.noConfusion hp2
      exact ⟨by rw [upd_ne _ _ _ _ hne]; exact hp2, hU2,
        by rw [upd_ne _ _ _ _ hj2]; exact hc2⟩
  · -- chanPhase
    intro j2
    dsimp only
    by_cases hj2 : j2 = j
    · subst hj2
      rw [upd_same, upd_same]
      constructor
      · rintro (hx | ⟨i3, hx⟩) <;> exact ChanSt.noConfusion hx
      · rintro (hr | hr) <;> exact Phase.noConfusion hr
    · rw [upd_ne _ _ _ _ hj2, upd_ne _ _ _ _ hj2]
      exact hinv.chanPhase j2

theorem regInv_step_timeoutExpire (U : Nat → String) (s s' : RegSt) (j : Nat)
    (hinv : RegInv U s)
    (hstep : applyLabel U (Label.timeoutExpire j) s = some s') : RegInv U s' := by
  simp only [applyLabel] at hstep
  rcases hpj : s.phase j with _ | _ | _ | j2 | j2 | j2 | _ | _ <;> rw [hpj] at hstep <;>
    try exact Option.noConfusion hstep
  rcases hcj : s.chan j with _ | _ | i' | _ | _ <;> rw [hcj] at hstep <;>
    try exact Option.noConfusion hstep
  injection hstep with hstep
  subst hstep
  refine ⟨?_, ?_, ?_, ?_, ?_, ?_, ?_⟩
  · -- regWaiting
    intro u i2 h
    dsimp only at h ⊢
    obtain ⟨hU2, hph2, hch2⟩ := hinv.regWaiting u i2 h
    by_cases hi2 : i2 = j
    · subst hi2
      exact ⟨hU2, Or.inr (by rw [upd_same]), hch2⟩
    · exact ⟨hU2, by rw [upd_ne _ _ _ _ hi2]; exact hph2, hch2⟩
  · -- sendingOK
    intro i2 j2 h
    dsimp only at h ⊢
    by_cases hi2 : i2 = j
    · subst hi2
      rw [upd_same] at h
      exact Phase.noConfusion h
    · rw [upd_ne _ _ _ _ hi2] at h
      obtain ⟨hU2, hpj2, hrj2, hcj2⟩ := hinv.sendingOK i2 j2 h
      refine ⟨hU2, ?_, hrj2, hcj2⟩
      by_cases hj2 : j2 = j
      · subst hj2
        rw [upd_same]
        exact Or.inr (Or.inl rfl)
      · rw [upd_ne _ _ _ _ hj2]
        exact hpj2
  · -- senderUnique
    intro i2 i3 j2 h h'
    dsimp only at h h'
    by_cases hi2 : i2 = j
    · subst hi2
      rw [upd_same] at h
      exact Phase.noConfusion h
    · by_cases hi3 : i3 = j
      · subst hi3
        rw [upd_same] at h'
        exact Phase.noConfusion h'
      · rw [upd_ne _ _ _ _ hi2] at h
        rw [upd_ne _ _ _ _ hi3] at h'
        exact hinv.senderUnique i2 i3 j2 h h'
  · -- pairedOK
    intro i2 j2 h
    dsimp only at h ⊢
    by_cases hi2 : i2 = j
    · subst hi2
      rw [upd_same] at h
      exact Phase.noConfusion h
    · rw [upd_ne _ _ _ _ hi2] at h
      obtain ⟨hU2, hdisj⟩ := hinv.pairedOK i2 j2 h
      rcases hdisj with ⟨hw, hold⟩ | hr | ⟨ht, hcl⟩
      · by_cases hj2 : j2 = j
        · subst hj2
          exact ⟨hU2, Or.inl ⟨Or.inr (by rw [upd_same]), hold⟩⟩
        · exact ⟨hU2, Or.inl ⟨by rw [upd_ne _ _ _ _ hj2]; exact hw, hold⟩⟩
      · have hj2 : j2 ≠ j := by
          intro he
          subst he
          rw [hpj] at hr
          exact Phase.noConfusion hr
        exact ⟨hU2, Or.inr (Or.inl (by rw [upd_ne _ _ _ _ hj2]; exact hr))⟩
      · have hj2 : j2 ≠ j := by
          intro he
          subst he
          rw [hpj] at ht
          exact Phase.noConfusion ht
        exact ⟨hU2, Or.inr (Or.inr ⟨by rw [upd_ne _ _ _ _ hj2]; exact ht, hcl⟩)⟩
  · -- holdsOK
    intro j2 i2 h
    dsimp only at h ⊢
    have hp2 := hinv.holdsOK j2 i2 h
    have hne : i2 ≠ j := by
      intro he
      subst he
      rw [hpj] at hp2
      exact Phase.noConfusion hp2
    rw [upd_ne _ _ _ _ hne]
    exact hp2
  · -- relayingOK
    intro j2 i2 h
    dsimp only at h ⊢
    by_cases hj2 : j2 = j
    · subst hj2
      rw [upd_same] at h
      exact Phase.noConfusion h
    · rw [upd_ne _ _ _ _ hj2] at h
      obtain ⟨hp2, hU2, hc2⟩ := hinv.relayingOK j2 i2 h
      have hne : i2 ≠ j := by
        intro he
        subst he
        rw [hpj] at hp2
        exact Phase.noConfusion hp2
      exact ⟨by rw [upd_ne _ _ _ _ hne]; exact hp2, hU2, hc2⟩
  · -- chanPhase
    intro j2
    dsimp only
    by_cases hj2 : j2 = j
    · subst hj2
      rw [upd_same]
      constructor
      · intro _
        exact Or.inr rfl
      · intro _
        exact Or.inl hcj
    · rw [upd_ne _ _ _ _ hj2]
      exact hinv.chanPhase j2

theorem regInv_step_timeoutRemove (U : Nat → String) (s s' : RegSt) (j : Nat)
    (hinv : RegInv U s)
    (hstep : applyLabel U (Label.timeoutRemove j) s = some s') : RegInv U s' := by
  simp only [applyLabel] at hstep
  rcases hpj : s.phase j with _ | _ | _ | j2 | j2 | j2 | _ | _ <;> rw [hpj] at hstep <;>
    try exact Option.noConfusion hstep
  injection hstep with hstep
  subst hstep
  refine ⟨?_, ?_, ?_, ?_, ?_, ?_, ?_⟩
  · -- regWaiting
    intro u i2 h
    dsimp only at h ⊢
    by_cases hu : u = U j
    · subst hu
      rw [upd_same] at h
      exact Option.noConfusion h
    · rw [upd_ne _ _ _ _ hu] at h
      obtain ⟨hU2, hph2, hch2⟩ := hinv.regWaiting u i2 h
      have hne : i2 ≠ j := by
        intro he
        subst he
        exact hu hU2.symm
      exact ⟨hU2, by rw [upd_ne _ _ _ _ hne]; exact hph2,
        by rw [upd_ne _ _ _ _ hne]; exact hch2⟩
  · -- sendingOK
    intro i2 j2 h
    dsimp only at h ⊢
    by_cases hi2 : i2 = j
    · subst hi2
      rw [upd_same] at h
      exact Phase.noConfusion h
    · rw [upd_ne _ _ _ _ hi2] at h
      obtain ⟨hU2, hpj2, hrj2, hcj2⟩ := hinv.sendingOK i2 j2 h
      refine ⟨hU2, ?_, ?_, ?_⟩
      · by_cases hj2 : j2 = j
        · subst hj2
          rw [upd_same]
          exact Or.inr (Or.inr rfl)
        · rw [upd_ne _ _ _ _ hj2]
          exact hpj2
      · by_cases hu : U j2 = U j
        · rw [hu, upd_same]
          simp
        · rw [upd_ne _ _ _ _ hu]
          exact hrj2
      · by_cases hj2 : j2 = j
        · subst hj2
          rw [upd_same]
          exact Or.inr rfl
        · rw [upd_ne _ _ _ _ hj2]
          exact hcj2
  · -- senderUnique
    intro i2 i3 j2 h h'
    dsimp only at h h'
    by_cases hi2 : i2 = j
    · subst hi2
      rw [upd_same] at h
      exact Phase.noConfusion h
    · by_cases hi3 : i3 = j
      · subst hi3
        rw [upd_same] at h'
        exact Phase.noConfusion h'
      · rw [upd_ne _ _ _ _ hi2] at h
        rw [upd_ne _ _ _ _ hi3] at h'
        exact hinv.senderUnique i2 i3 j2 h h'
  · -- pairedOK
    intro i2 j2 h
    dsimp only at h ⊢
    by_cases hi2 : i2 = j
    · subst hi2
      rw [upd_same] at h
      exact Phase.noConfusion h
    · rw [upd_ne _ _ _ _ hi2] at h
      obtain ⟨hU2, hdisj⟩ := hinv.pairedOK i2 j2 h
      rcases hdisj with ⟨hw, hold⟩ | hr | ⟨ht, hcl⟩
      · by_cases hj2 : j2 = j
        · subst hj2
          exact ⟨hU2, Or.inr (Or.inr ⟨by rw [upd_same], by rw [upd_same]⟩)⟩
        · exact ⟨hU2, Or.inl ⟨by rw [upd_ne _ _ _ _ hj2]; exact hw,
            by rw [upd_ne _ _ _ _ hj2]; exact hold⟩⟩
      · have hj2 : j2 ≠ j := by
          intro he
          subst he
          rw [hpj] at hr
          exact Phase.noConfusion hr
        exact ⟨hU2, Or.inr (Or.inl (by rw [upd_ne _ _ _ _ hj2]; exact hr))⟩
      · have hj2 : j2 ≠ j := by
          intro he
          subst he
          rw [hpj] at ht
          exact Phase.noConfusion ht
        exact ⟨hU2, Or.inr (Or.inr ⟨by rw [upd_ne _ _ _ _ hj2]; exact ht,
          by rw [upd_ne _ _ _ _ hj2]; exact hcl⟩)⟩
  · -- holdsOK
    intro j2 i2 h
    dsimp only at h ⊢
    by_cases hj2 : j2 = j
    · subst hj2
      rw [upd_same] at h
      exact ChanSt.noConfusion h
    · rw [upd_ne _ _ _ _ hj2] at h
      have hp2 := hinv.holdsOK j2 i2 h
      have hne : i2 ≠ j := by
        intro he
        subst he
        rw [hpj] at hp2
        exact Phase.noConfusion hp2
      rw [upd_ne _ _ _ _ hne]
      exact hp2
  · -- relayingOK
    intro j2 i2 h
    dsimp only at h ⊢
    by_cases hj2 : j2 = j
    · subst hj2
      rw [upd_same] at h
      exact Phase.noConfusion h
    · rw [upd_ne _ _ _ _ hj2] at h
      obtain ⟨hp2, hU2, hc2⟩ := hinv.relayingOK j2 i2 h
      have hne : i2 ≠ j := by
        intro he
        subst he
        rw [hpj] at hp2
        exact Phase.noConfusion hp2
      exact ⟨by rw [upd_ne _ _ _ _ hne]; exact hp2, hU2,
        by rw [upd_ne _ _ _ _ hj2]; exact hc2⟩
  · -- chanPhase
    intro j2
    dsimp only
    by_cases hj2 : j2 = j
    · subst hj2
      rw [upd_same, upd_same]
      constructor
      · rintro (hx | ⟨i3, hx⟩) <;> exact ChanSt.noConfusion hx
      · rintro (hr | hr) <;> exact Phase.noConfusion hr
    · rw [upd_ne _ _ _ _ hj2, upd_ne _ _ _ _ hj2]
      exact hinv.chanPhase j2

theorem regInv_step (U : Nat → String) (l : Label) (s s' : RegSt)
    (hinv : RegInv U s) (hstep : applyLabel U l s = some s') : RegInv U s' := by
  cases l with
  | tryPairFound i j => exact regInv_step_tryPair U s s' i j hinv hstep
  | registerWait i => exact regInv_step_register U s s' i hinv hstep
  | send i j => exact regInv_step_send U s s' i j hinv hstep
  | sendFail i j => exact regInv_step_sendFail U s s' i j hinv hstep
  | recv j i => exact regInv_step_recv U s s' j i hinv hstep
  | timeoutExpire j => exact regInv_step_timeoutExpire U s s' j hinv hstep
  | timeoutRemove j => exact regInv_step_timeoutRemove U s s' j hinv hstep

theorem regInv_runFrom (U : Nat → String) : ∀ (t : List Label) (s s' : RegSt),
    RegInv U s → runFrom U s t = some s' → RegInv U s' := by
  intro t
  induction t with
  | nil =>
    intro s s' hinv h
    simp only [runFrom] at h
    injection h with h
    subst h
    exact hinv
  | cons l t ih =>
    intro s s' hinv h
    simp only [runFrom] at h
    rcases hl : applyLabel U l s with _ | s1 <;> rw [hl] at h
    · exact Option.noConfusion h
    · exact ih s1 s' (regInv_step U l s s1 hinv hl) h
theorem phase_not_timingOut_step (U : Nat → String) (l : Label) (s s' : RegSt) (A : Nat)
    (hstep : applyLabel U l s = some s') (hl : l ≠ Label.timeoutExpire A)
    (hA : s.phase A ≠ Phase.timingOut) : s'.phase A ≠ Phase.timingOut := by
  cases l with
  | tryPairFound i j =>
    simp only [applyLabel] at hstep
    rcases hpi : s.phase i with _ | _ | _ | j2 | j2 | j2 | _ | _ <;> rw [hpi] at hstep <;>
      try exact Option.noConfusion hstep
    rcases hreg : s.reg (U i) with _ | j' <;> rw [hreg] at hstep
    case none => exact Option.noConfusion hstep
    dsimp only at hstep
    by_cases hj : j' = j
    case neg => rw [if_neg hj] at hstep; exact Option.noConfusion hstep
    subst hj
    rw [if_pos rfl] at hstep
    injection hstep with hstep
    subst hstep
    dsimp only
    by_cases hAi : A = i
    · subst hAi
      rw [upd_same]
      intro hc
      exact Phase.noConfusion hc
    · rw [upd_ne _ _ _ _ hAi]
      exact hA
  | registerWait i =>
    simp only [applyLabel] at hstep
    rcases hpi : s.phase i with _ | _ | _ | j2 | j2 | j2 | _ | _ <;> rw [hpi] at hstep <;>
      try exact Option.noConfusion hstep
    rcases hreg : s.reg (U i) with _ | j' <;> rw [hreg] at hstep
    case some => exact Option.noConfusion hstep
    injection hstep with hstep
    subst hstep
    dsimp only
    by_cases hAi : A = i
    · subst hAi
      rw [upd_same]
      intro hc
      exact Phase.noConfusion hc
    · rw [upd_ne _ _ _ _ hAi]
      exact hA
  | send i j =>
    simp only [applyLabel] at hstep
    rcases hpi : s.phase i with _ | _ | _ | j' | j2 | j2 | _ | _ <;> rw [hpi] at hstep <;>
      try exact Option.noConfusion hstep
    rcases hcj : s.chan j with _ | _ | i' | _ | _ <;> rw [hcj] at hstep <;>
      try exact Option.noConfusion hstep
    dsimp only at hstep
    by_cases hj : j' = j
    case neg => rw [if_neg hj] at hstep; exact Option.noConfusion hstep
    subst hj
    rw [if_pos rfl] at hstep
    injection hstep with hstep
    subst hstep
    dsimp only
    by_cases hAi : A = i
    · subst hAi
      rw [upd_same]
      intro hc
      exact Phase.noConfusion hc
    · rw [upd_ne _ _ _ _ hAi]
      exact hA
  | sendFail i j =>
    simp only [applyLabel] at hstep
    rcases hpi : s.phase i with _ | _ | _ | j' | j2 | j2 | _ | _ <;> rw [hpi] at hstep <;>
      try exact Option.noConfusion hstep
    rcases hcj : s.chan j with _ | _ | i' | _ | _ <;> rw [hcj] at hstep <;>
      try exact Option.noConfusion hstep
    dsimp only at hstep
    by_cases hj : j' = j
    case neg => rw [if_neg hj] at hstep; exact Option.noConfusion hstep
    subst hj
    rw [if_pos rfl] at hstep
    injection hstep with hstep
    subst hstep
    dsimp only
    by_cases hAi : A = i
    · subst hAi
      rw [upd_same]
      intro hc
      exact Phase.noConfusion hc
    · rw [upd_ne _ _ _ _ hAi]
      exact hA
  | recv j i =>
    simp only [applyLabel] at hstep
    rcases hpj : s.phase j with _ | _ | _ | j2 | j2 | j2 | _ | _ <;> rw [hpj] at hstep <;>
      try exact Option.noConfusion hstep
    rcases hcj : s.chan j with _ | _ | i' | _ | _ <;> rw [hcj] at hstep <;>
      try exact Option.noConfusion hstep
    dsimp only at hstep
    by_cases hi : i' = i
    case neg => rw [if_neg hi] at hstep; exact Option.noConfusion hstep
    subst hi
    rw [if_pos rfl] at hstep
    injection hstep with hstep
    subst hstep
    dsimp only
    by_cases hAj : A = j
    · subst hAj
      rw [upd_same]
      intro hc
      exact Phase.noConfusion hc
    · rw [upd_ne _ _ _ _ hAj]
      exact hA
  | timeoutExpire j =>
    have hAj : A ≠ j := by
      intro he
      subst he
      exact hl rfl
    simp only [applyLabel] at hstep
    rcases hpj : s.phase j with _ | _ | _ | j2 | j2 | j2 | _ | _ <;> rw [hpj] at hstep <;>
      try exact Option.noConfusion hstep
    rcases hcj : s.chan j with _ | _ | i' | _ | _ <;> rw [hcj] at hstep <;>
      try exact Option.noConfusion hstep
    injection hstep with hstep
    subst hstep
    dsimp only
    rw [upd_ne _ _ _ _ hAj]
    exact hA
  | timeoutRemove j =>
    simp only [applyLabel] at hstep
    rcases hpj : s.phase j with _ | _ | _ | j2 | j2 | j2 | _ | _ <;> rw [hpj] at hstep <;>
      try exact Option.noConfusion hstep
    injection hstep with hstep
    subst hstep
    dsimp only
    by_cases hAj : A = j
    · subst hAj
      rw [upd_same]
      intro hc
      exact Phase.noConfusion hc
    · rw [upd_ne _ _ _ _ hAj]
      exact hA

theorem phase_not_timingOut_run (U : Nat → String) (A : Nat) :
    ∀ (t : List Label) (s s' : RegSt), Label.timeoutExpire A ∉ t →
      s.phase A ≠ Phase.timingOut → runFrom U s t = some s' →
      s'.phase A ≠ Phase.timingOut := by
  intro t
  induction t with
  | nil =>
    intro s s' _ hA h
    simp only [runFrom] at h
    injection h with h
    subst h
    exact hA
  | cons l t ih =>
    intro s s' hnt hA h
    simp only [runFrom] at h
    rcases hl : applyLabel U l s with _ | s1 <;> rw [hl] at h
    · exact Option.noConfusion h
    · have hlne : l ≠ Label.timeoutExpire A := by
        intro he
        subst he
        exact hnt (List.mem_cons_self _ _)
      exact ih s1 s' (fun hm => hnt (List.mem_cons_of_mem _ hm))
        (phase_not_timingOut_step U l s s1 A hl hlne hA) h

theorem pairingJ_establish (U : Nat → String) (s s' : RegSt) (A B : Nat)
    (hinv : RegInv U s) (hAnt : s.phase A ≠ Phase.timingOut)
    (hstep : applyLabel U (Label.tryPairFound B A) s = some s') :
    pairingJ A B s' ∧ U B = U A := by
  simp only [applyLabel] at hstep
  rcases hpB : s.phase B with _ | _ | _ | j2 | j2 | j2 | _ | _ <;> rw [hpB] at hstep <;>
    try exact Option.noConfusion hstep
  rcases hreg : s.reg (U B) with _ | j' <;> rw [hreg] at hstep
  case none => exact Option.noConfusion hstep
  dsimp only at hstep
  by_cases hj : j' = A
  case neg => rw [if_neg hj] at hstep; exact Option.noConfusion hstep
  subst hj
  rw [if_pos rfl] at hstep
  injection hstep with hstep
  subst hstep
  obtain ⟨hUA, hpA, hcA⟩ := hinv.regWaiting (U B) j' hreg
  have hpAw : s.phase j' = Phase.waiting := by
    rcases hpA with hx | hx
    · exact hx
    · exact absurd hx hAnt
  have hAB : j' ≠ B := by
    intro he
    rw [he, hpB] at hpAw
    exact Phase.noConfusion hpAw
  refine ⟨Or.inl ⟨?_, ?_, ?_⟩, hUA.symm⟩
  · dsimp only
    rw [upd_same]
  · dsimp only
    rw [upd_ne _ _ _ _ hAB]
    exact hpAw
  · exact hcA
theorem pairingJ_step (U : Nat → String) (s s' : RegSt) (A B : Nat) (l : Label)
    (hinv : RegInv U s) (hJ : pairingJ A B s)
    (hl : l ≠ Label.timeoutExpire A)
    (hstep : applyLabel U l s = some s') : pairingJ A B s' := by
  unfold pairingJ at hJ
  unfold pairingJ
  cases l with
  | tryPairFound i j =>
    simp only [applyLabel] at hstep
    rcases hpi : s.phase i with _ | _ | _ | j2 | j2 | j2 | _ | _ <;> rw [hpi] at hstep <;>
      try exact Option.noConfusion hstep
    rcases hreg : s.reg (U i) with _ | j' <;> rw [hreg] at hstep
    case none => exact Option.noConfusion hstep
    dsimp only at hstep
    by_cases hj : j' = j
    case neg => rw [if_neg hj] at hstep; exact Option.noConfusion hstep
    subst hj
    rw [if_pos rfl] at hstep
    injection hstep with hstep
    subst hstep
    dsimp only
    rcases hJ with ⟨hB, hA, hC⟩ | ⟨hB, hA, hC⟩ | ⟨hB, hA, hC⟩
    · have hBi : B ≠ i := by
        intro he
        rw [he] at hB
        rw [hB] at hpi
        exact Phase.noConfusion hpi
      have hAi : A ≠ i := by
        intro he
        rw [he] at hA
        rw [hA] at hpi
        exact Phase.noConfusion hpi
      exact Or.inl ⟨by rw [upd_ne _ _ _ _ hBi]; exact hB,
        by rw [upd_ne _ _ _ _ hAi]; exact hA, hC⟩
    · have hBi : B ≠ i := by
        intro he
        rw [he] at hB
        rw [hB] at hpi
        exact Phase.noConfusion hpi
      have hAi : A ≠ i := by
        intro he
        rw [he] at hA
        rw [hA] at hpi
        exact Phase.noConfusion hpi
      exact Or.inr (Or.inl ⟨by rw [upd_ne _ _ _ _ hBi]; exact hB,
        by rw [upd_ne _ _ _ _ hAi]; exact hA, hC⟩)
    · have hBi : B ≠ i := by
        intro he
        rw [he] at hB
        rw [hB] at hpi
        exact Phase.noConfusion hpi
      have hAi : A ≠ i := by
        intro he
        rw [he] at hA
        rw [hA] at hpi
        exact Phase.noConfusion hpi
      exact Or.inr (Or.inr ⟨by rw [upd_ne _ _ _ _ hBi]; exact hB,
        by rw [upd_ne _ _ _ _ hAi]; exact hA, hC⟩)
  | registerWait i =>
    simp only [applyLabel] at hstep
    rcases hpi : s.phase i with _ | _ | _ | j2 | j2 | j2 | _ | _ <;> rw [hpi] at hstep <;>
      try exact Option.noConfusion hstep
    rcases hreg : s.reg (U i) with _ | j' <;> rw [hreg] at hstep
    case some => exact Option.noConfusion hstep
    injection hstep with hstep
    subst hstep
    dsimp only
    rcases hJ with ⟨hB, hA, hC⟩ | ⟨hB, hA, hC⟩ | ⟨hB, hA, hC⟩ <;>
      [refine Or.inl ⟨?_, ?_, ?_⟩; refine Or.inr (Or.inl ⟨?_, ?_, ?_⟩);
        refine Or.inr (Or.inr ⟨?_, ?_, ?_⟩)] <;>
      [skip; skip; skip; skip; skip; skip; skip; skip; skip]
    all_goals {
      first
      | (rw [upd_ne _ _ _ _ (show B ≠ i by
            intro he
            rw [he] at hB
            rw [hB] at hpi
            exact Phase.noConfusion hpi)]
         exact hB)
      | (rw [upd_ne _ _ _ _ (show A ≠ i by
            intro he
            rw [he] at hA
            rw [hA] at hpi
            exact Phase.noConfusion hpi)]
         exact hA)
      | (rw [upd_ne _ _ _ _ (show A ≠ i by
            intro he
            rw [he] at hA
            rw [hA] at hpi
            exact Phase.noConfusion hpi)]
         exact hC)
      | exact hC
    }
  | send i j =>
    simp only [applyLabel] at hstep
    rcases hpi : s.phase i with _ | _ | _ | j' | j2 | j2 | _ | _ <;> rw [hpi] at hstep <;>
      try exact Option.noConfusion hstep
    rcases hcj : s.chan j with _ | _ | i' | _ | _ <;> rw [hcj] at hstep <;>
      try exact Option.noConfusion hstep
    dsimp only at hstep
    by_cases hj : j' = j
    case neg => rw [if_neg hj] at hstep; exact Option.noConfusion hstep
    subst hj
    rw [if_pos rfl] at hstep
    injection hstep with hstep
    subst hstep
    dsimp only
    rcases hJ with ⟨hB, hA, hC⟩ | ⟨hB, hA, hC⟩ | ⟨hB, hA, hC⟩
    · by_cases hjA : j' = A
      · subst hjA
        have hiB : i = B := hinv.senderUnique i B j' hpi hB
        subst hiB
        have hAi : j' ≠ i := by
          intro he
          rw [he] at hA
          rw [hA] at hpi
          exact Phase.noConfusion hpi
        refine Or.inr (Or.inl ⟨?_, ?_, ?_⟩)
        · rw [upd_same]
        · rw [upd_ne _ _ _ _ hAi]
          exact hA
        · rw [upd_same]
      · have hiB : i ≠ B := by
          intro he
          rw [he] at hpi
          rw [hB] at hpi
          injection hpi with hx
          exact hjA hx.symm
        have hiA : i ≠ A := by
          intro he
          rw [he] at hpi
          rw [hA] at hpi
          exact Phase.noConfusion hpi
        exact Or.inl ⟨by rw [upd_ne _ _ _ _ (Ne.symm hiB)]; exact hB,
          by rw [upd_ne _ _ _ _ (Ne.symm hiA)]; exact hA,
          by rw [upd_ne _ _ _ _ (fun he => hjA he.symm)]; exact hC⟩
    · have hjA : j' ≠ A := by
        intro he
        rw [he] at hcj
        rw [hC] at hcj
        exact ChanSt.noConfusion hcj
      have hiB : i ≠ B := by
        intro he
        rw [he] at hpi
        rw [hB] at hpi
        exact Phase.noConfusion hpi
      have hiA : i ≠ A := by
        intro he
        rw [he] at hpi
        rw [hA] at hpi
        exact Phase.noConfusion hpi
      exact Or.inr (Or.inl ⟨by rw [upd_ne _ _ _ _ (Ne.symm hiB)]; exact hB,
        by rw [upd_ne _ _ _ _ (Ne.symm hiA)]; exact hA,
        by rw [upd_ne _ _ _ _ (fun he => hjA he.symm)]; exact hC⟩)
    · have hjA : j' ≠ A := by
        intro he
        rw [he] at hcj
        rw [hC] at hcj
        exact ChanSt.noConfusion hcj
      have hiB : i ≠ B := by
        intro he
        rw [he] at hpi
        rw [hB] at hpi
        exact Phase.noConfusion hpi
      have hiA : i ≠ A := by
        intro he
        rw [he] at hpi
        rw [hA] at hpi
        exact Phase.noConfusion hpi
      exact Or.inr (Or.inr ⟨by rw [upd_ne _ _ _ _ (Ne.symm hiB)]; exact hB,
        by rw [upd_ne _ _ _ _ (Ne.symm hiA)]; exact hA,
        by rw [upd_ne _ _ _ _ (fun he => hjA he.symm)]; exact hC⟩)
  | sendFail i j =>
    simp only [applyLabel] at hstep
    rcases hpi : s.phase i with _ | _ | _ | j' | j2 | j2 | _ | _ <;> rw [hpi] at hstep <;>
      try exact Option.noConfusion hstep
    rcases hcj : s.chan j with _ | _ | i' | _ | _ <;> rw [hcj] at hstep <;>
      try exact Option.noConfusion hstep
    dsimp only at hstep
    by_cases hj : j' = j
    case neg => rw [if_neg hj] at hstep; exact Option.noConfusion hstep
    subst hj
    rw [if_pos rfl] at hstep
    injection hstep with hstep
    subst hstep
    dsimp only
    rcases hJ with ⟨hB, hA, hC⟩ | ⟨hB, hA, hC⟩ | ⟨hB, hA, hC⟩
    · have hiB : i ≠ B := by
        intro he
        rw [he] at hpi
        rw [hB] at hpi
        injection hpi with hx
        rw [← hx] at hcj
        rw [hC] at hcj
        exact ChanSt.noConfusion hcj
      have hiA : i ≠ A := by
        intro he
        rw [he] at hpi
        rw [hA] at hpi
        exact Phase.noConfusion hpi
      exact Or.inl ⟨by rw [upd_ne _ _ _ _ (Ne.symm hiB)]; exact hB,
        by rw [upd_ne _ _ _ _ (Ne.symm hiA)]; exact hA, hC⟩
    · have hiB : i ≠ B := by
        intro he
        rw [he] at hpi
        rw [hB] at hpi
        exact Phase.noConfusion hpi
      have hiA : i ≠ A := by
        intro he
        rw [he] at hpi
        rw [hA] at hpi
        exact Phase.noConfusion hpi
      exact Or.inr (Or.inl ⟨by rw [upd_ne _ _ _ _ (Ne.symm hiB)]; exact hB,
        by rw [upd_ne _ _ _ _ (Ne.symm hiA)]; exact hA, hC⟩)
    · have hiB : i ≠ B := by
        intro he
        rw [he] at hpi
        rw [hB] at hpi
        exact Phase.noConfusion hpi
      have hiA : i ≠ A := by
        intro he
        rw [he] at hpi
        rw [hA] at hpi
        exact Phase.noConfusion hpi
      exact Or.inr (Or.inr ⟨by rw [upd_ne _ _ _ _ (Ne.symm hiB)]; exact hB,
        by rw [upd_ne _ _ _ _ (Ne.symm hiA)]; exact hA, hC⟩)
  | recv j i =>
    simp only [applyLabel] at hstep
    rcases hpj : s.phase j with _ | _ | _ | j2 | j2 | j2 | _ | _ <;> rw [hpj] at hstep <;>
      try exact Option.noConfusion hstep
    rcases hcj : s.chan j with _ | _ | i' | _ | _ <;> rw [hcj] at hstep <;>
      try exact Option.noConfusion hstep
    dsimp only at hstep
    by_cases hi : i' = i
    case neg => rw [if_neg hi] at hstep; exact Option.noConfusion hstep
    subst hi
    rw [if_pos rfl] at hstep
    injection hstep with hstep
    subst hstep
    dsimp only
    rcases hJ with ⟨hB, hA, hC⟩ | ⟨hB, hA, hC⟩ | ⟨hB, hA, hC⟩
    · have hjA : j ≠ A := by
        intro he
        rw [he] at hcj
        rw [hC] at hcj
        exact ChanSt.noConfusion hcj
      have hjB : j ≠ B := by
        intro he
        rw [he] at hpj
        rw [hB] at hpj
        exact Phase.noConfusion hpj
      exact Or.inl ⟨by rw [upd_ne _ _ _ _ (Ne.symm hjB)]; exact hB,
        by rw [upd_ne _ _ _ _ (Ne.symm hjA)]; exact hA,
        by rw [upd_ne _ _ _ _ (Ne.symm hjA)]; exact hC⟩
    · by_cases hjA : j = A
      · have hcjA : s.chan A = ChanSt.holds i' := by
          rw [← hjA]
          exact hcj
        rw [hC] at hcjA
        injection hcjA with hx
        have hBA : B ≠ j := by
          intro he
          rw [he] at hB
          rw [hpj] at hB
          exact Phase.noConfusion hB
        refine Or.inr (Or.inr ⟨?_, ?_, ?_⟩)
        · rw [upd_ne _ _ _ _ hBA]
          exact hB
        · rw [← hjA, upd_same, ← hx]
        · rw [← hjA, upd_same]
      · have hjB : j ≠ B := by
          intro he
          rw [he] at hpj
          rw [hB] at hpj
          exact Phase.noConfusion hpj
        exact Or.inr (Or.inl ⟨by rw [upd_ne _ _ _ _ (Ne.symm hjB)]; exact hB,
          by rw [upd_ne _ _ _ _ (fun he => hjA he.symm)]; exact hA,
          by rw [upd_ne _ _ _ _ (fun he => hjA he.symm)]; exact hC⟩)
    · have hjA : j ≠ A := by
        intro he
        rw [he] at hpj
        rw [hA] at hpj
        exact Phase.noConfusion hpj
      have hjB : j ≠ B := by
        intro he
        rw [he] at hpj
        rw [hB] at hpj
        exact Phase.noConfusion hpj
      exact Or.inr (Or.inr ⟨by rw [upd_ne _ _ _ _ (Ne.symm hjB)]; exact hB,
        by rw [upd_ne _ _ _ _ (Ne.symm hjA)]; exact hA,
        by rw [upd_ne _ _ _ _ (Ne.symm hjA)]; exact hC⟩)
  | timeoutExpire j =>
    have hjA : j ≠ A := by
      intro he
      exact hl (by rw [he])
    simp only [applyLabel] at hstep
    rcases hpj : s.phase j with _ | _ | _ | j2 | j2 | j2 | _ | _ <;> rw [hpj] at hstep <;>
      try exact Option.noConfusion hstep
    rcases hcj : s.chan j with _ | _ | i' | _ | _ <;> rw [hcj] at hstep <;>
      try exact Option.noConfusion hstep
    injection hstep with hstep
    subst hstep
    dsimp only
    rcases hJ with ⟨hB, hA, hC⟩ | ⟨hB, hA, hC⟩ | ⟨hB, hA, hC⟩
    · have hjB : j ≠ B := by
        intro he
        rw [he] at hpj
        rw [hB] at hpj
        exact Phase.noConfusion hpj
      exact Or.inl ⟨by rw [upd_ne _ _ _ _ (Ne.symm hjB)]; exact hB,
        by rw [upd_ne _ _ _ _ (Ne.symm hjA)]; exact hA, hC⟩
    · have hjB : j ≠ B := by
        intro he
        rw [he] at hpj
        rw [hB] at hpj
        exact Phase.noConfusion hpj
      exact Or.inr (Or.inl ⟨by rw [upd_ne _ _ _ _ (Ne.symm hjB)]; exact hB,
        by rw [upd_ne _ _ _ _ (Ne.symm hjA)]; exact hA, hC⟩)
    · have hjB : j ≠ B := by
        intro he
        rw [he] at hpj
        rw [hB] at hpj
        exact Phase.noConfusion hpj
      exact Or.inr (Or.inr ⟨by rw [upd_ne _ _ _ _ (Ne.symm hjB)]; exact hB,
        by rw [upd_ne _ _ _ _ (Ne.symm hjA)]; exact hA, hC⟩)
  | timeoutRemove j =>
    simp only [applyLabel] at hstep
    rcases hpj : s.phase j with _ | _ | _ | j2 | j2 | j2 | _ | _ <;> rw [hpj] at hstep <;>
      try exact Option.noConfusion hstep
    injection hstep with hstep
    subst hstep
    dsimp only
    rcases hJ with ⟨hB, hA, hC⟩ | ⟨hB, hA, hC⟩ | ⟨hB, hA, hC⟩
    · have hjA : j ≠ A := by
        intro he
        rw [he] at hpj
        rw [hA] at hpj
        exact Phase.noConfusion hpj
      have hjB : j ≠ B := by
        intro he
        rw [he] at hpj
        rw [hB] at hpj
        exact Phase.noConfusion hpj
      exact Or.inl ⟨by rw [upd_ne _ _ _ _ (Ne.symm hjB)]; exact hB,
        by rw [upd_ne _ _ _ _ (Ne.symm hjA)]; exact hA,
        by rw [upd_ne _ _ _ _ (Ne.symm hjA)]; exact hC⟩
    · have hjA : j ≠ A := by
        intro he
        rw [he] at hpj
        rw [hA] at hpj
        exact Phase.noConfusion hpj
      have hjB : j ≠ B := by
        intro he
        rw [he] at hpj
        rw [hB] at hpj
        exact Phase.noConfusion hpj
      exact Or.inr (Or.inl ⟨by rw [upd_ne _ _ _ _ (Ne.symm hjB)]; exact hB,
        by rw [upd_ne _ _ _ _ (Ne.symm hjA)]; exact hA,
        by rw [upd_ne _ _ _ _ (Ne.symm hjA)]; exact hC⟩)
    · have hjA : j ≠ A := by
        intro he
        rw [he] at hpj
        rw [hA] at hpj
        exact Phase.noConfusion hpj
      have hjB : j ≠ B := by
        intro he
        rw [he] at hpj
        rw [hB] at hpj
        exact Phase.noConfusion hpj
      exact Or.inr (Or.inr ⟨by rw [upd_ne _ _ _ _ (Ne.symm hjB)]; exact hB,
        by rw [upd_ne _ _ _ _ (Ne.symm hjA)]; exact hA,
        by rw [upd_ne _ _ _ _ (Ne.symm hjA)]; exact hC⟩)

theorem runFrom_append (U : Nat → String) : ∀ (t1 t2 : List Label) (s : RegSt),
    runFrom U s (t1 ++ t2) =
      match runFrom U s t1 with
      | some s1 => runFrom U s1 t2
      | none => none := by
  intro t1
  induction t1 with
  | nil => intro t2 s; rfl
  | cons l t ih =>
    intro t2 s
    simp only [List.cons_append, runFrom]
    rcases hl : applyLabel U l s with _ | s1
    · rfl
    · exact ih t2 s1

theorem pairingJ_runFrom (U : Nat → String) (A B : Nat) : ∀ (t : List Label) (s s' : RegSt),
    RegInv U s → pairingJ A B s → Label.timeoutExpire A ∉ t →
    runFrom U s t = some s' → pairingJ A B s' ∧ RegInv U s' := by
  intro t
  induction t with
  | nil =>
    intro s s' hinv hJ _ h
    simp only [runFrom] at h
    injection h with h
    subst h
    exact ⟨hJ, hinv⟩
  | cons l t ih =>
    intro s s' hinv hJ hnt h
    simp only [runFrom] at h
    rcases hl : applyLabel U l s with _ | s1 <;> rw [hl] at h
    · exact Option.noConfusion h
    · have hlne : l ≠ Label.timeoutExpire A := by
        intro he
        subst he
        exact hnt (List.mem_cons_self _ _)
      have hnt' : Label.timeoutExpire A ∉ t := fun hm => hnt (List.mem_cons_of_mem _ hm)
      exact ih s1 s' (regInv_step U l s s1 hinv hl)
        (pairingJ_step U s s1 A B l hinv hJ hlne hl) hnt' h
/-- C6: in every reachable state of the pairing registry system, two tasks
that are paired — one holds the other's connection half, or is relaying with
it — presented the same session identifier.  Contrapositive: connections with
distinct identifiers are never paired, in any interleaving. -/
theorem distinct_ids_never_paired (U : Nat → String) (t : List Label) (s : RegSt) (i j : Nat)
    (hrun : runTrace U t = some s)
    (hp : s.phase i = Phase.relaying j ∨ s.phase i = Phase.pairedSecond j) :
    U i = U j := by
  have hinv := regInv_runFrom U t initSt s (regInv_init U) hrun
  rcases hp with h | h
  · exact ((hinv.relayingOK i j h).2.1).symm
  · exact (hinv.pairedOK i j h).1

/-- Witness for C6: a complete pairing run in which task 0 relays with
task 1; their identifiers agree. -/
theorem distinct_ids_never_paired_witness :
    runTrace uuidEx exPairTrace = some (stAfter uuidEx exPairTrace) ∧
      (stAfter uuidEx exPairTrace).phase 0 = Phase.relaying 1 ∧
      uuidEx 0 = uuidEx 1 :=
  ⟨rfl, rfl, distinct_ids_never_paired uuidEx exPairTrace (stAfter uuidEx exPairTrace) 0 1
    rfl (Or.inl rfl)⟩

/-- C3 (amended): in every reachable state where a first-arrival task A has
timed out — its locked removal has run — the registry holds no entry owned by
A under any identifier.  The claim's further consequence, that a later
connection with the same identifier can never be matched with A, is false:
between the deadline elapsing and A's locked removal the entry is still
present and A's channel still open, so a later connection can claim it and
deliver into A's channel (see the counterexample). -/
theorem timeout_leaves_no_entry (U : Nat → String) (t : List Label) (s : RegSt) (A : Nat)
    (hrun : runTrace U t = some s) (hA : s.phase A = Phase.timedOut) :
    ∀ u, s.reg u ≠ some A := by
  have hinv := regInv_runFrom U t initSt s (regInv_init U) hrun
  intro u h
  rcases (hinv.regWaiting u A h).2.1 with hw | hw <;> rw [hA] at hw <;>
    exact Phase.noConfusion hw

/-- Witness for the amended C3: task 0 registers, its pairing deadline
elapses, and it removes its entry; it ends timed out owning no entry. -/
theorem timeout_leaves_no_entry_witness :
    runTrace uuidEx exTimeoutTrace = some (stAfter uuidEx exTimeoutTrace) ∧
      (stAfter uuidEx exTimeoutTrace).phase 0 = Phase.timedOut ∧
      (stAfter uuidEx exTimeoutTrace).reg "s" ≠ some 0 :=
  ⟨rfl, rfl,
    timeout_leaves_no_entry uuidEx exTimeoutTrace (stAfter uuidEx exTimeoutTrace) 0
      rfl rfl "s"⟩

/-- C3 (counterexample): in `cexStaleTrace` task 0's pairing deadline elapses
while its entry is still registered; before task 0 reacquires the lock to
remove the entry, task 1 presents the same identifier, claims the stale entry,
and delivers its connection half into task 0's still-open channel — the send
succeeds.  Task 0 then removes and bails: the run ends with task 0 timed out
and task 1 paired to it, so a timed-out connection's stale entry does match a
later connection with the same identifier. -/
theorem timeout_stale_entry_cex :
    runTrace uuidEx cexStaleTrace = some (stAfter uuidEx cexStaleTrace) ∧
      (stAfter uuidEx cexStaleTrace).phase 0 = Phase.timedOut ∧
      (stAfter uuidEx cexStaleTrace).phase 1 = Phase.pairedSecond 0 ∧
      (stAfter uuidEx cexStaleTrace).chan 0 = ChanSt.closed ∧
      (stAfter uuidEx cexStaleTrace).reg "s" = none :=
  ⟨rfl, rfl, rfl, rfl, rfl⟩

/-- C2 (amended): if task B claims task A's registry entry for their shared
identifier, A's pairing timeout does not expire during the run — neither
before B claims the entry nor afterwards — and the run continues until neither
B's channel send nor A's receive is still pending, then A ends relaying with
B, B ends paired with A — and with no third task presenting the same
identifier the registry ends with no entry for it, and B is the only task
paired to A.  (The claim as stated, with B merely presenting the identifier
before A's 30-second deadline, fails: see the counterexample.) -/
theorem pairing_completes_without_timeout (U : Nat → String) (A B : Nat)
    (t1 t2 : List Label) (s : RegSt)
    (hrun : runTrace U (t1 ++ Label.tryPairFound B A :: t2) = some s)
    (hnt1 : Label.timeoutExpire A ∉ t1)
    (hnt : Label.timeoutExpire A ∉ t2)
    (hq1 : applyLabel U (Label.send B A) s = none)
    (hq2 : applyLabel U (Label.recv A B) s = none)
    (hU : ∀ k, U k = U A → k = A ∨ k = B) :
    s.phase A = Phase.relaying B ∧ s.phase B = Phase.pairedSecond A ∧
      s.reg (U A) = none ∧ (∀ k, s.phase k = Phase.pairedSecond A → k = B) := by
  unfold runTrace at hrun
  rw [runFrom_append U t1 (Label.tryPairFound B A :: t2) initSt] at hrun
  rcases h1 : runFrom U initSt t1 with _ | s1 <;> rw [h1] at hrun
  · exact Option.noConfusion hrun
  simp only [runFrom] at hrun
  rcases h2 : applyLabel U (Label.tryPairFound B A) s1 with _ | s2 <;> rw [h2] at hrun
  · exact Option.noConfusion hrun
  have hinv1 : RegInv U s1 := regInv_runFrom U t1 initSt s1 (regInv_init U) h1
  have hA1 : s1.phase A ≠ Phase.timingOut :=
    phase_not_timingOut_run U A t1 initSt s1 hnt1
      (by intro hc; exact Phase.noConfusion hc) h1
  have hinv2 : RegInv U s2 := regInv_step U (Label.tryPairFound B A) s1 s2 hinv1 h2
  obtain ⟨hJ2, hUBA⟩ := pairingJ_establish U s1 s2 A B hinv1 hA1 h2
  obtain ⟨hJ, hinv⟩ := pairingJ_runFrom U A B t2 s2 s hinv2 hJ2 hnt hrun
  rcases hJ with ⟨hB, hA, hC⟩ | ⟨hB, hA, hC⟩ | ⟨hB, hA, hC⟩
  · exfalso
    simp only [applyLabel] at hq1
    rw [hB, hC] at hq1
    dsimp only at hq1
    rw [if_pos rfl] at hq1
    exact Option.noConfusion hq1
  · exfalso
    simp only [applyLabel] at hq2
    rw [hA, hC] at hq2
    dsimp only at hq2
    rw [if_pos rfl] at hq2
    exact Option.noConfusion hq2
  · refine ⟨hA, hB, ?_, ?_⟩
    · rcases hr : s.reg (U A) with _ | k
      · rfl
      · exfalso
        obtain ⟨hUk, hpk, _⟩ := hinv.regWaiting (U A) k hr
        rcases hU k hUk with he | he
        · subst he
          rcases hpk with hx | hx <;> rw [hA] at hx <;> exact Phase.noConfusion hx
        · subst he
          rcases hpk with hx | hx <;> rw [hB] at hx <;> exact Phase.noConfusion hx
    · intro k hk
      rcases (hinv.pairedOK k A hk).2 with ⟨_, hold⟩ | hr | ⟨ht, _⟩
      · rw [hC] at hold
        exact ChanSt.noConfusion hold
      · rw [hA] at hr
        injection hr with hr
        exact hr.symm
      · rw [hA] at ht
        exact Phase.noConfusion ht

/-- C2 (counterexample): in `cexRaceTrace` task 1 presents the shared
identifier — its `tryPairFound` removes task 0's entry — strictly before any
timeout event, yet task 0's timeout expires and its removal runs before task
1's channel send, so the run ends with task 0 timed out and task 1's send
failed: the two connections are not paired even though task 1 presented the
identifier before task 0's timeout, refuting C2 as stated. -/
theorem pairing_timeout_race_cex :
    runTrace uuidEx cexRaceTrace = some (stAfter uuidEx cexRaceTrace) ∧
      (stAfter uuidEx cexRaceTrace).phase 0 = Phase.timedOut ∧
      (stAfter uuidEx cexRaceTrace).phase 1 = Phase.sendFailed ∧
      (stAfter uuidEx cexRaceTrace).reg "s" = none :=
  ⟨rfl, rfl, rfl, rfl⟩

/-- Witness for the amended C2 at a concrete complete run: task 0 registers,
task 1 claims the entry, delivers its half, task 0 receives it. -/
theorem pairing_completes_witness :
    (stAfter uuidEx exPairTrace).phase 0 = Phase.relaying 1 ∧
      (stAfter uuidEx exPairTrace).phase 1 = Phase.pairedSecond 0 ∧
      (stAfter uuidEx exPairTrace).reg (uuidEx 0) = none := by
  have h := pairing_completes_without_timeout uuidEx 0 1 [Label.registerWait 0]
    [Label.send 1 0, Label.recv 0 1] (stAfter uuidEx exPairTrace) rfl (by decide)
    (by decide) rfl rfl
    (by
      intro k hk
      by_cases h1 : k ≤ 1
      · omega
      · exfalso
        have ht : uuidEx k = "t" := by simp [uuidEx, h1]
        have hs : uuidEx 0 = "s" := rfl
        rw [ht, hs] at hk
        exact absurd hk (by decide))
  exact ⟨h.1, h.2.1, h.2.2.1⟩
